import Mathlib

/-!
Verification of the treasury aggregation and consistency-normalization core
(`src/utils/calculations.ts` and the consistency normalizer shipped with it)
against its natural-language specification.

Modelling conventions (shallow embedding):
* JavaScript numbers carrying money are embedded as rationals (`ℚ`); a raw
  value that may be non-finite (`NaN`/`±Infinity`) is embedded as `JsNum`,
  with `JsNum.finite q` the finite case (`Number.isFinite` distinguishes
  exactly these).
* A date string is embedded as `DateStr`: `invalid s` is a string `parseISO`
  rejects, `canon d` is the canonical `yyyy-MM-dd` string denoting calendar
  day number `d` (days since 1970-01-01), and `noncanon d raw` is any other
  parseable string denoting day `d` (e.g. one carrying a time component).
  `format(parseISO s, 'yyyy-MM-dd')` is `normalizeDate`; it maps both
  parseable forms to `canon d`.  All interval endpoints used by the
  aggregation code are day boundaries (`startOfMonth`/`endOfDay` and
  friends), so timestamp comparisons in the source are faithfully modelled
  at day granularity.
* The clock (`new Date()`) is passed explicitly: `getWeeklyBreakdown` takes
  the current civil date `today` (the source computes `endOfDay(new Date())`)
  and the normalizer takes `now`, the `new Date().toISOString()` string used
  to default missing timestamps.
* `JSON.stringify(a) !== JSON.stringify(b)` on two values produced by the
  same construction path is deep value inequality; it is embedded as
  decidable structural inequality.
* JavaScript string truthiness is `≠ ""`; `undefined`/`null` optional fields
  are `Option`.
-/

namespace Treasury

/-- The four transaction types, `TransactionType` in `src/types/index.ts`. -/
inductive TransactionType where
  | income
  | donation
  | investment
  | expense
deriving DecidableEq, Repr

/-- Trend values of the `Comparison` type in `src/types/index.ts`. -/
inductive Trend where
  | up
  | down
  | same
  | noData
deriving DecidableEq, Repr

/-- A JavaScript number that may be non-finite.  `Number.isFinite` holds
exactly on `finite q`. -/
inductive JsNum where
  | finite (q : ℚ)
  | nonFinite
deriving DecidableEq, Repr

/-- A date string as the code sees it: unparseable, canonical
(`yyyy-MM-dd` for calendar day `d`), or parseable but non-canonical
(denoting day `d` with some other spelling `raw`). -/
inductive DateStr where
  | invalid (s : String)
  | canon (d : ℤ)
  | noncanon (d : ℤ) (raw : String)
deriving DecidableEq, Repr

/-- `format(parseISO value, 'yyyy-MM-dd')` guarded by `isValid`: the
`normalizeDate` helper of the consistency normalizer. -/
def normalizeDate : DateStr → Option DateStr
  | DateStr.invalid _ => none
  | DateStr.canon d => some (DateStr.canon d)
  | DateStr.noncanon d _ => some (DateStr.canon d)

/-- The calendar day denoted by `parseISO` of a date string (`none` when the
string does not parse to a valid date). -/
def parseDay : DateStr → Option ℤ
  | DateStr.invalid _ => none
  | DateStr.canon d => some d
  | DateStr.noncanon d _ => some d

/-- JavaScript `String.prototype.trim` whitespace test (restricted to the
whitespace characters that occur in the data model). -/
def isWs (c : Char) : Bool := c == ' ' || c == '\t' || c == '\n' || c == '\r'

/-- JavaScript `String.prototype.trim`. -/
def jsTrim (s : String) : String :=
  String.mk (((s.data.dropWhile isWs).reverse.dropWhile isWs).reverse)

/-! ## Aggregation engine (`src/utils/calculations.ts`)

The `Transaction` record as the aggregation functions consume it (the typed
shape of `src/types/index.ts`; amounts are finite numbers, dates arbitrary
strings parsed on use). -/

/-- `Transaction` of `src/types/index.ts`. -/
structure Transaction where
  id : String
  type : TransactionType
  amount : ℚ
  date : DateStr
  categoryId : String
  description : String
  tags : Option (List String)
  paymentMethod : Option String
  receipt : Option String
  createdAt : String
  updatedAt : String
deriving DecidableEq, Repr

/-- `MonthlyStats` of `src/types/index.ts`. -/
structure MonthlyStats where
  income : ℚ
  donations : ℚ
  investments : ℚ
  expenses : ℚ
  net : ℚ
  balance : ℚ
deriving DecidableEq, Repr

/-- `WeeklyBreakdown` of `src/types/index.ts`.  `weekStart`/`weekEnd` are the
calendar day numbers whose `yyyy-MM-dd` rendering the source stores. -/
structure WeeklyBreakdown where
  weekStart : ℤ
  weekEnd : ℤ
  weekNumber : ℕ
  income : ℚ
  donations : ℚ
  investments : ℚ
  expenses : ℚ
  net : ℚ
deriving DecidableEq, Repr

/-- `Comparison` of `src/types/index.ts`. -/
structure Comparison where
  current : ℚ
  previous : ℚ
  difference : ℚ
  percentageChange : Option ℚ
  trend : Trend
deriving DecidableEq, Repr

/-- `getInvestmentAmount` (calculations.ts line 17). -/
def getInvestmentAmount (transaction : Transaction) : ℚ :=
  if transaction.type = TransactionType.investment then transaction.amount else 0

/-- `getTransactionInflow` (calculations.ts line 21). -/
def getTransactionInflow (transaction : Transaction) : ℚ :=
  if transaction.type = TransactionType.income ∨ transaction.type = TransactionType.donation ∨
      transaction.type = TransactionType.investment then
    transaction.amount
  else 0

/-- `getTransactionOutflow` (calculations.ts line 28). -/
def getTransactionOutflow (transaction : Transaction) : ℚ :=
  if transaction.type = TransactionType.expense then transaction.amount else 0

/-- `calculateBalance` (calculations.ts line 32): a `reduce` from
`initialFund`. -/
def calculateBalance (transactions : List Transaction) (initialFund : ℚ) : ℚ :=
  transactions.foldl (fun balance t => balance + getTransactionInflow t - getTransactionOutflow t)
    initialFund

/-- `isWithinInterval(parseISO t.date, {start, end})` with both endpoints on
day boundaries, at day granularity; an invalid date (`parseISO` giving
`Invalid Date`) satisfies no interval. -/
def inInterval (d : Option ℤ) (startDate endDate : ℤ) : Bool :=
  match d with
  | some n => decide (startDate ≤ n ∧ n ≤ endDate)
  | none => false

/-- `getTransactionsForPeriod` (calculations.ts line 41). -/
def getTransactionsForPeriod (transactions : List Transaction) (startDate endDate : ℤ) :
    List Transaction :=
  transactions.filter (fun t => inInterval (parseDay t.date) startDate endDate)

/-! ### Civil calendar

`date-fns` month and week arithmetic over the proleptic Gregorian calendar.
`civilBase y m + d - 1` is Hinnant's `days_from_civil` algorithm for the day
number of `y-m-d` (denominated in days since 1970-01-01), with the `d` term
isolated so that the day-of-month dependence is visibly affine. -/

/-- A civil calendar date (the `Date` arguments of the aggregation API). -/
structure CivilDate where
  year : ℤ
  month : ℤ
  day : ℤ
deriving DecidableEq, Repr

/-- Leap-year test of the Gregorian calendar (as `date-fns` computes it). -/
def isLeap (y : ℤ) : Bool := y % 4 == 0 && (y % 100 != 0 || y % 400 == 0)

/-- Days in month `m` of year `y` (`date-fns` `getDaysInMonth`). -/
def daysInMonth (y m : ℤ) : ℤ :=
  if m = 2 then (if isLeap y then 29 else 28)
  else if m = 4 ∨ m = 6 ∨ m = 9 ∨ m = 11 then 30
  else 31

/-- Day number of the day before the first of month `m` of year `y`
(so day `d` of that month is `civilBase y m + d - 1`). -/
def civilBase (y m : ℤ) : ℤ :=
  let y' := if m ≤ 2 then y - 1 else y
  let era := Int.fdiv y' 400
  let yoe := y' - era * 400
  let mp := (m + 9) % 12
  era * 146097 + (yoe * 365 + yoe / 4 - yoe / 100 + (153 * mp + 2) / 5) - 719468

/-- Day number (days since 1970-01-01) of a civil date. -/
def dayNumber (c : CivilDate) : ℤ := civilBase c.year c.month + c.day - 1

/-- `date-fns` `startOfMonth` (first day of the month of the given date). -/
def startOfMonth (c : CivilDate) : CivilDate := { year := c.year, month := c.month, day := 1 }

/-- `date-fns` `endOfMonth` (last day of the month of the given date). -/
def endOfMonth (c : CivilDate) : CivilDate :=
  { year := c.year, month := c.month, day := daysInMonth c.year c.month }

/-- `date-fns` `isSameMonth`. -/
def isSameMonth (a b : CivilDate) : Bool := a.year == b.year && a.month == b.month

/-- The Monday on or before day `n` (day 0, 1970-01-01, is a Thursday):
`startOfWeek(n, {weekStartsOn: 1})`. -/
def mondayOnOrBefore (n : ℤ) : ℤ := n - (n + 3) % 7

/-- `getMonthlyStats` (calculations.ts line 52). -/
def getMonthlyStats (transactions : List Transaction) (month : CivilDate) (initialFund : ℚ)
    (allTransactions : List Transaction) : MonthlyStats :=
  let start := dayNumber (startOfMonth month)
  let endD := dayNumber (endOfMonth month)
  let monthTransactions := getTransactionsForPeriod transactions start endD
  let income := (monthTransactions.filter (fun t => t.type = TransactionType.income)).foldl
    (fun sum t => sum + t.amount) 0
  let donations := (monthTransactions.filter (fun t => t.type = TransactionType.donation)).foldl
    (fun sum t => sum + t.amount) 0
  let investments := monthTransactions.foldl (fun sum t => sum + getInvestmentAmount t) 0
  let expenses := (monthTransactions.filter (fun t => t.type = TransactionType.expense)).foldl
    (fun sum t => sum + t.amount) 0
  let net := income + donations + investments - expenses
  let transactionsUpToMonth := allTransactions.filter (fun t =>
    match parseDay t.date with
    | some n => decide (n ≤ endD)
    | none => false)
  let balance := calculateBalance transactionsUpToMonth initialFund
  { income, donations, investments, expenses, net, balance }

/-- `getWeeklyBreakdown` (calculations.ts line 88).  `today` is the civil
date of the `new Date()` the source reads; `eachWeekOfInterval` with
`weekStartsOn: 1` enumerates the Mondays from `mondayOnOrBefore start` to
`mondayOnOrBefore effectiveEnd` in steps of 7 days, of which there are
`(mondayOnOrBefore effectiveEnd - mondayOnOrBefore start) / 7 + 1`. -/
def getWeeklyBreakdown (transactions : List Transaction) (month : CivilDate)
    (today : CivilDate) : List WeeklyBreakdown :=
  let start := dayNumber (startOfMonth month)
  let endD := dayNumber (endOfMonth month)
  let effectiveEnd := if isSameMonth month today then dayNumber today else endD
  if effectiveEnd < start then []
  else
    let w0 := mondayOnOrBefore start
    let wLast := mondayOnOrBefore effectiveEnd
    (List.range ((wLast - w0) / 7 + 1).toNat).map (fun (index : ℕ) =>
      let weekStart := w0 + 7 * (index : ℤ)
      let weekEnd := weekStart + 6
      let actualEnd := if effectiveEnd < weekEnd then effectiveEnd else weekEnd
      let actualStart := if weekStart < start then start else weekStart
      let weekTransactions := getTransactionsForPeriod transactions actualStart actualEnd
      let income := (weekTransactions.filter (fun t => t.type = TransactionType.income)).foldl
        (fun sum t => sum + t.amount) 0
      let donations := (weekTransactions.filter (fun t => t.type = TransactionType.donation)).foldl
        (fun sum t => sum + t.amount) 0
      let investments := weekTransactions.foldl (fun sum t => sum + getInvestmentAmount t) 0
      let expenses := (weekTransactions.filter (fun t => t.type = TransactionType.expense)).foldl
        (fun sum t => sum + t.amount) 0
      { weekStart := actualStart, weekEnd := actualEnd, weekNumber := index + 1,
        income, donations, investments, expenses,
        net := income + donations + investments - expenses })

/-- `calculateComparison` (calculations.ts line 145). -/
def calculateComparison (current previous : ℚ) : Comparison :=
  let difference := current - previous
  if previous = 0 then
    { current, previous, difference, percentageChange := none,
      trend := if current > 0 then Trend.up else if current < 0 then Trend.down else Trend.same }
  else
    let percentageChange := (current - previous) / |previous| * 100
    let trend :=
      if |percentageChange| < 1 then Trend.same
      else if percentageChange > 0 then Trend.up
      else Trend.down
    { current, previous, difference, percentageChange := some percentageChange, trend }

/-! ## Consistency normalizer

The raw record shapes a snapshot can actually contain (manual edits and
partial writes may violate the typed shapes; a `null` list entry behaves
exactly like one with an empty `id`, which the code drops).  The `R` prefix
distinguishes these raw shapes from the typed aggregation shapes above. -/

/-- A raw `Category` record. -/
structure RCategory where
  id : String
  name : String
  type : String
  isDefault : Option Bool
deriving DecidableEq, Repr

/-- A raw `Transaction` record. -/
structure RTransaction where
  id : String
  type : String
  amount : JsNum
  date : DateStr
  categoryId : String
  description : Option String
  tags : Option (List String)
  paymentMethod : Option String
  receipt : Option String
  createdAt : String
  updatedAt : String
deriving DecidableEq, Repr

/-- A raw `Period` record. -/
structure RPeriod where
  id : String
  name : String
  startDate : DateStr
  endDate : DateStr
  initialFund : JsNum
  createdAt : String
deriving DecidableEq, Repr

/-- A raw `AppSettings` record; `none` stands for a missing/`null` field,
already merged over `DEFAULT_SETTINGS` (the `{...DEFAULT_SETTINGS,
...snapshot.settings}` spread changes no observable outcome because every
consumer of a defaulted field collapses the default and the missing case to
the same value). -/
structure RSettings where
  currentPeriodId : Option String
  hasCompletedOnboarding : Option Bool
  theme : Option String
deriving DecidableEq, Repr

/-- `TreasurySnapshot` of `src/data/treasuryRepository.ts`. -/
structure TreasurySnapshot where
  transactions : List RTransaction
  categories : List RCategory
  periods : List RPeriod
  settings : RSettings
deriving DecidableEq, Repr

/-- `DEFAULT_SETTINGS` of the consistency normalizer. -/
def DEFAULT_SETTINGS : RSettings :=
  { currentPeriodId := none, hasCompletedOnboarding := some false, theme := some "light" }

/-- The id stem of synthetic uncategorized categories
(`UNCATEGORIZED_` + `PREFIX` in the source; renamed for this file). -/
def UNCATEGORIZED_STEM : String := "cat-uncategorized-"

/-- `TRANSACTION_TYPES` of the consistency normalizer. -/
def TRANSACTION_TYPES : List String := ["income", "donation", "investment", "expense"]

/-- `isTransactionType`. -/
def isTransactionType (value : String) : Bool := TRANSACTION_TYPES.contains value

/-- JavaScript `x?.trim() || ''` on an optional string. -/
def jsTrimOpt (s : Option String) : String :=
  match s with
  | some v => jsTrim v
  | none => ""

/-- JavaScript `x?.trim() || undefined` on an optional string. -/
def trimToUndef (s : Option String) : Option String :=
  match s with
  | some v => if jsTrim v = "" then none else some (jsTrim v)
  | none => none

/-- `ensureUncategorizedCategory` (push modelled as returning the extended
list together with the found-or-created category). -/
def ensureUncategorizedCategory (categories : List RCategory) (type : String) :
    List RCategory × RCategory :=
  match categories.find? (fun category => category.id = UNCATEGORIZED_STEM ++ type) with
  | some existing => (categories, existing)
  | none =>
    let created : RCategory :=
      { id := UNCATEGORIZED_STEM ++ type, name := "Sin categoría", type, isDefault := some true }
    (categories ++ [created], created)

/-- The body of `normalizeCategories`, with the `seen` id set explicit. -/
def normalizeCategoriesGo : List String → List RCategory → List RCategory
  | _, [] => []
  | seen, category :: rest =>
    if category.id = "" ∨ category.name = "" then normalizeCategoriesGo seen rest
    else if ¬ isTransactionType category.type then normalizeCategoriesGo seen rest
    else if category.id ∈ seen then normalizeCategoriesGo seen rest
    else
      { category with
          name := if jsTrim category.name = "" then "Sin nombre" else jsTrim category.name,
          isDefault := some (category.isDefault.getD false) } ::
        normalizeCategoriesGo (category.id :: seen) rest

/-- `normalizeCategories`. -/
def normalizeCategories (categories : List RCategory) : List RCategory :=
  normalizeCategoriesGo [] categories

/-- Lookup in the JavaScript `Map` built by the normalizer: the newest
binding for a key wins. -/
def mapGet (m : List (String × RCategory)) (key : String) : Option RCategory :=
  (m.find? (fun e => e.1 = key)).map (fun e => e.2)

/-- `Map.prototype.set` (a newer binding shadows older ones). -/
def mapSet (m : List (String × RCategory)) (key : String) (value : RCategory) :
    List (String × RCategory) :=
  (key, value) :: m

/-- `new Map(categories.map(c => [c.id, c]))`: with duplicate ids the later
entry wins, hence the reversal. -/
def mapOfList (categories : List RCategory) : List (String × RCategory) :=
  (categories.map (fun category => (category.id, category))).reverse

/-- One iteration of the `transactions.forEach` loop of
`normalizeTransactions`: given the current category list and category map,
either drops the record or produces the normalized record together with the
(possibly extended) category state.  `now` is `new Date().toISOString()`. -/
def normalizeTransactionsStep (now : String) (categories : List RCategory)
    (categoryMap : List (String × RCategory)) (transaction : RTransaction) :
    Option (RTransaction × List RCategory × List (String × RCategory)) :=
  if transaction.id = "" then none
  else if ¬ isTransactionType transaction.type then none
  else
    match transaction.amount with
    | JsNum.nonFinite => none
    | JsNum.finite amount =>
      if amount ≤ 0 then none
      else
        match normalizeDate transaction.date with
        | none => none
        | some normalizedDate =>
          let resolved :=
            match mapGet categoryMap transaction.categoryId with
            | some category =>
              if category.type = transaction.type then
                (transaction.categoryId, categories, categoryMap)
              else
                let fc := ensureUncategorizedCategory categories transaction.type
                (fc.2.id, fc.1, mapSet categoryMap fc.2.id fc.2)
            | none =>
              let fc := ensureUncategorizedCategory categories transaction.type
              (fc.2.id, fc.1, mapSet categoryMap fc.2.id fc.2)
          let createdAt := if transaction.createdAt = "" then now else transaction.createdAt
          let updatedAt := if transaction.updatedAt = "" then createdAt else transaction.updatedAt
          some
            ({ transaction with
                amount := JsNum.finite amount,
                date := normalizedDate,
                categoryId := resolved.1,
                description := some (jsTrimOpt transaction.description),
                tags := transaction.tags.map (fun l => l.filter (fun tag => tag ≠ "")),
                paymentMethod := trimToUndef transaction.paymentMethod,
                receipt := trimToUndef transaction.receipt,
                createdAt := createdAt,
                updatedAt := updatedAt },
              resolved.2.1, resolved.2.2)

/-- The `transactions.forEach` loop of `normalizeTransactions`. -/
def normalizeTransactionsGo (now : String) :
    List RTransaction → List RCategory → List (String × RCategory) →
    List RTransaction × List RCategory
  | [], categories, _ => ([], categories)
  | transaction :: rest, categories, categoryMap =>
    match normalizeTransactionsStep now categories categoryMap transaction with
    | none => normalizeTransactionsGo now rest categories categoryMap
    | some (t, categories', categoryMap') =>
      let tail := normalizeTransactionsGo now rest categories' categoryMap'
      (t :: tail.1, tail.2)

/-- `normalizeTransactions`. -/
def normalizeTransactions (now : String) (transactions : List RTransaction)
    (categories : List RCategory) : List RTransaction × List RCategory :=
  normalizeTransactionsGo now transactions categories (mapOfList categories)

/-- `normalizePeriods`. -/
def normalizePeriods (now : String) (periods : List RPeriod) : List RPeriod :=
  (periods.filter (fun period => period.id ≠ "" ∧ period.name ≠ "")).map (fun period =>
    { period with
        name := if jsTrim period.name = "" then "Periodo" else jsTrim period.name,
        startDate := (normalizeDate period.startDate).getD period.startDate,
        endDate := (normalizeDate period.endDate).getD period.endDate,
        initialFund :=
          match period.initialFund with
          | JsNum.finite q => JsNum.finite q
          | JsNum.nonFinite => JsNum.finite 0,
        createdAt := if period.createdAt = "" then now else period.createdAt })

/-- `normalizeSettings` applied to the `DEFAULT_SETTINGS`-merged record. -/
def normalizeSettings (settings : RSettings) : RSettings :=
  { currentPeriodId := settings.currentPeriodId,
    hasCompletedOnboarding := some (settings.hasCompletedOnboarding.getD false),
    theme := some (if settings.theme = some "dark" then "dark" else "light") }

/-- `normalizeTreasurySnapshot`.  `now` is the `new Date().toISOString()`
reading used to default missing timestamps; the `JSON.stringify` deep
comparisons are embedded as decidable structural inequality. -/
def normalizeTreasurySnapshot (now : String) (snapshot : TreasurySnapshot) :
    TreasurySnapshot × Bool :=
  let categories := normalizeCategories snapshot.categories
  let nt := normalizeTransactions now snapshot.transactions categories
  let periods := normalizePeriods now snapshot.periods
  let settings := normalizeSettings snapshot.settings
  let periodIds := periods.map (fun period => period.id)
  let currentPeriodId :=
    match settings.currentPeriodId with
    | some pid => if pid ≠ "" ∧ pid ∈ periodIds then some pid else (periods.head?.map (fun p => p.id))
    | none => periods.head?.map (fun p => p.id)
  let normalizedSnapshot : TreasurySnapshot :=
    { transactions := nt.1, categories := nt.2, periods,
      settings := { settings with currentPeriodId } }
  let changed := decide (snapshot.transactions ≠ nt.1 ∨ snapshot.categories ≠ nt.2 ∨
    snapshot.periods ≠ periods ∨ snapshot.settings ≠ normalizedSnapshot.settings)
  (normalizedSnapshot, changed)

/-- `TransactionInput` (a `Transaction` without `id`/`createdAt`/`updatedAt`). -/
structure TransactionInput where
  type : String
  amount : JsNum
  date : DateStr
  categoryId : String
  description : Option String
  tags : Option (List String)
  paymentMethod : Option String
  receipt : Option String
deriving DecidableEq, Repr

/-- `normalizeTransactionInput`. -/
def normalizeTransactionInput (input : TransactionInput) (categories : List RCategory) :
    Option (TransactionInput × List RCategory × Bool) :=
  if ¬ isTransactionType input.type then none
  else
    match input.amount with
    | JsNum.nonFinite => none
    | JsNum.finite amount =>
      if amount ≤ 0 then none
      else
        match normalizeDate input.date with
        | none => none
        | some normalizedDate =>
          let updatedCategories := categories
          let categoryMap := mapOfList updatedCategories
          let resolved :=
            match mapGet categoryMap input.categoryId with
            | some category =>
              if category.type = input.type then (input.categoryId, updatedCategories)
              else
                let fc := ensureUncategorizedCategory updatedCategories input.type
                (fc.2.id, fc.1)
            | none =>
              let fc := ensureUncategorizedCategory updatedCategories input.type
              (fc.2.id, fc.1)
          let transaction : TransactionInput :=
            { input with
                amount := JsNum.finite amount,
                date := normalizedDate,
                categoryId := resolved.1,
                description := some (jsTrimOpt input.description),
                tags := input.tags.map (fun l => l.filter (fun tag => tag ≠ "")),
                paymentMethod := trimToUndef input.paymentMethod,
                receipt := trimToUndef input.receipt }
          let changed := decide (input ≠ transaction ∨ resolved.2.length ≠ categories.length)
          some (transaction, resolved.2, changed)

/-! ## Auxiliary predicates and sample data used by the theorems -/

/-- The per-record validity guards of `normalizeTransactions` that do not
involve the category list: a record failing one of them is dropped, one
passing all of them is kept. -/
def passesGuards (t : RTransaction) : Bool :=
  (t.id != "") && isTransactionType t.type &&
    (match t.amount with
     | JsNum.finite q => decide (0 < q)
     | JsNum.nonFinite => false) &&
    (normalizeDate t.date).isSome

/-- An optional string field that a second `?.trim() || undefined` pass
leaves unchanged. -/
def optTrimmed : Option String → Prop
  | none => True
  | some s => jsTrim s = s ∧ s ≠ ""

/-- A category record that `normalizeCategories` maps to itself. -/
def CanonCat (c : RCategory) : Prop :=
  c.id ≠ "" ∧ c.name ≠ "" ∧ jsTrim c.name = c.name ∧ isTransactionType c.type = true ∧
    c.isDefault.isSome = true

/-- A category list that `normalizeCategories` maps to itself. -/
def CanonCats (cs : List RCategory) : Prop :=
  (∀ c ∈ cs, CanonCat c) ∧ (cs.map (fun c => c.id)).Nodup

/-- A transaction record that a second `normalizeTransactions` pass (against
the category list `cats`) maps to itself. -/
def CanonTx (cats : List RCategory) (t : RTransaction) : Prop :=
  t.id ≠ "" ∧ isTransactionType t.type = true ∧
    (∃ q, t.amount = JsNum.finite q ∧ 0 < q) ∧
    (∃ d, t.date = DateStr.canon d) ∧
    (∃ c ∈ cats, c.id = t.categoryId ∧
      (c.type = t.type ∨ t.categoryId = UNCATEGORIZED_STEM ++ t.type)) ∧
    (∃ s, t.description = some s ∧ jsTrim s = s) ∧
    (t.tags = none ∨ ∃ l, t.tags = some l ∧ l.filter (fun tag => tag ≠ "") = l) ∧
    optTrimmed t.paymentMethod ∧ optTrimmed t.receipt ∧
    t.createdAt ≠ "" ∧ t.updatedAt ≠ ""

/-- A period record that `normalizePeriods` maps to itself. -/
def CanonPeriod (p : RPeriod) : Prop :=
  p.id ≠ "" ∧ p.name ≠ "" ∧ jsTrim p.name = p.name ∧
    (normalizeDate p.startDate).getD p.startDate = p.startDate ∧
    (normalizeDate p.endDate).getD p.endDate = p.endDate ∧
    (∃ q, p.initialFund = JsNum.finite q) ∧ p.createdAt ≠ ""

/-- A snapshot whose settings a second normalization pass maps to
themselves: the flags are materialized and `currentPeriodId` is a non-empty
id of one of the snapshot's periods, or `null` with no periods at all. -/
def CanonSettings (S : TreasurySnapshot) : Prop :=
  (∃ b, S.settings.hasCompletedOnboarding = some b) ∧
    (S.settings.theme = some "light" ∨ S.settings.theme = some "dark") ∧
    ((S.settings.currentPeriodId = none ∧ S.periods = []) ∨
      (∃ pid, S.settings.currentPeriodId = some pid ∧ pid ≠ "" ∧
        pid ∈ S.periods.map (fun p => p.id)))

/-- Sample: the income transaction of the spec's concrete scenario
(2024-01-05 is day 19727). -/
def sampleIncomeTx : Transaction :=
  { id := "t-income", type := TransactionType.income, amount := 1000,
    date := DateStr.canon 19727, categoryId := "c1", description := "",
    tags := none, paymentMethod := none, receipt := none,
    createdAt := "2024-01-05", updatedAt := "2024-01-05" }

/-- Sample: the expense transaction of the spec's concrete scenario
(2024-01-20 is day 19742). -/
def sampleExpenseTx : Transaction :=
  { id := "t-expense", type := TransactionType.expense, amount := 300,
    date := DateStr.canon 19742, categoryId := "c2", description := "",
    tags := none, paymentMethod := none, receipt := none,
    createdAt := "2024-01-20", updatedAt := "2024-01-20" }

/-- Sample: a creation input with amount 0 (otherwise well-formed). -/
def sampleZeroInput : TransactionInput :=
  { type := "income", amount := JsNum.finite 0, date := DateStr.canon 19727,
    categoryId := "c1", description := none, tags := none,
    paymentMethod := none, receipt := none }

/-- Sample: a raw category squatting on the synthetic uncategorized id for
type `income` while having type `expense` and a custom name. -/
def c3Category : RCategory :=
  { id := "cat-uncategorized-income", name := "X", type := "expense", isDefault := some false }

/-- Sample: a well-formed income transaction with a dangling `categoryId`. -/
def c3Transaction : RTransaction :=
  { id := "t1", type := "income", amount := JsNum.finite 5, date := DateStr.canon 19727,
    categoryId := "missing", description := none, tags := none, paymentMethod := none,
    receipt := none, createdAt := "c", updatedAt := "u" }

/-- Sample snapshot on which the literal claim C3 fails. -/
def c3Snapshot : TreasurySnapshot :=
  { transactions := [c3Transaction], categories := [c3Category], periods := [],
    settings := { currentPeriodId := none, hasCompletedOnboarding := none, theme := none } }

/-- Sample snapshot whose category ids stay clear of the synthetic stem. -/
def c3CleanSnapshot : TreasurySnapshot :=
  { transactions := [c3Transaction],
    categories := [{ id := "c-exp", name := "Food", type := "expense", isDefault := some false }],
    periods := [],
    settings := { currentPeriodId := none, hasCompletedOnboarding := none, theme := none } }

/-! ## Theorems -/

/-- `foldl` of repeated addition is the initial value plus the sum of the
mapped list (the shape of every `reduce((sum, t) => sum + f(t), 0)`). -/
theorem foldl_add_eq (f : Transaction → ℚ) :
    ∀ (l : List Transaction) (a : ℚ), l.foldl (fun s t => s + f t) a = a + (l.map f).sum := by
  intro l
  induction l with
  | nil => intro a; simp
  | cons t rest ih =>
    intro a
    simp only [List.foldl_cons, List.map_cons, List.sum_cons, ih]
    ring

/-- Sums of mapped differences split. -/
theorem sum_map_sub (f g : Transaction → ℚ) (l : List Transaction) :
    (l.map (fun t => f t - g t)).sum = (l.map f).sum - (l.map g).sum := by
  induction l with
  | nil => simp
  | cons t rest ih => simp only [List.map_cons, List.sum_cons, ih]; ring

/-- `calculateBalance` in closed form. -/
theorem calculateBalance_closed (l : List Transaction) (F : ℚ) :
    calculateBalance l F =
      F + (l.map getTransactionInflow).sum - (l.map getTransactionOutflow).sum := by
  have h : calculateBalance l F =
      l.foldl (fun s t => s + (getTransactionInflow t - getTransactionOutflow t)) F := by
    unfold calculateBalance
    congr 1
    funext s t
    ring
  rw [h, foldl_add_eq (fun t => getTransactionInflow t - getTransactionOutflow t) l F,
    sum_map_sub]
  ring

/-- Claim C4: `calculateBalance(T, F)` equals `F` plus total inflow minus
total outflow over `T`, and is invariant under permutation of `T`. -/
theorem balance_additivity (T T' : List Transaction) (F : ℚ) (h : T.Perm T') :
    calculateBalance T F =
        F + (T.map getTransactionInflow).sum - (T.map getTransactionOutflow).sum ∧
      calculateBalance T F = calculateBalance T' F := by
  refine ⟨calculateBalance_closed T F, ?_⟩
  rw [calculateBalance_closed T F, calculateBalance_closed T' F,
    (h.map getTransactionInflow).sum_eq, (h.map getTransactionOutflow).sum_eq]

/-- Witness for C4 at a concrete two-element swap. -/
theorem balance_additivity_witness :
    [sampleIncomeTx, sampleExpenseTx].Perm [sampleExpenseTx, sampleIncomeTx] ∧
      calculateBalance [sampleIncomeTx, sampleExpenseTx] 500 =
        calculateBalance [sampleExpenseTx, sampleIncomeTx] 500 :=
  ⟨List.Perm.swap sampleExpenseTx sampleIncomeTx [],
    (balance_additivity [sampleIncomeTx, sampleExpenseTx] [sampleExpenseTx, sampleIncomeTx] 500
      (List.Perm.swap sampleExpenseTx sampleIncomeTx [])).2⟩

/-- Claim C6: `getMonthlyStats` returns `net = income + donations +
investments − expenses` from the same call, and `balance` is
`calculateBalance` of the unfiltered superset restricted to dates up to the
end of the month — independent of the filtered list `T`. -/
theorem monthly_total_consistency (T : List Transaction) (M : CivilDate) (F : ℚ)
    (A : List Transaction) :
    (getMonthlyStats T M F A).net =
        (getMonthlyStats T M F A).income + (getMonthlyStats T M F A).donations +
          (getMonthlyStats T M F A).investments - (getMonthlyStats T M F A).expenses ∧
      (getMonthlyStats T M F A).balance =
        calculateBalance
          (A.filter (fun t =>
            match parseDay t.date with
            | some n => decide (n ≤ dayNumber (endOfMonth M))
            | none => false)) F ∧
      ∀ T' : List Transaction,
        (getMonthlyStats T M F A).balance = (getMonthlyStats T' M F A).balance :=
  ⟨rfl, rfl, fun _ => rfl⟩

/-- Claim C7: the exact case analysis of `calculateComparison`. -/
theorem comparison_semantics (current previous : ℚ) :
    (calculateComparison current previous).difference = current - previous ∧
      (previous = 0 →
        (calculateComparison current previous).percentageChange = none ∧
          (calculateComparison current previous).trend =
            (if 0 < current then Trend.up
             else if current < 0 then Trend.down else Trend.same)) ∧
      (previous ≠ 0 →
        (calculateComparison current previous).percentageChange =
            some ((current - previous) / |previous| * 100) ∧
          (calculateComparison current previous).trend =
            (if |(current - previous) / |previous| * 100| < 1 then Trend.same
             else if 0 < (current - previous) / |previous| * 100 then Trend.up
             else Trend.down)) := by
  by_cases hp : previous = 0 <;>
    simp [calculateComparison, hp]

/-- Witness for C7 at the spec's concrete scenario `comparison(150, 200)`. -/
theorem comparison_semantics_witness :
    (200 : ℚ) ≠ 0 ∧
      (calculateComparison 150 200).percentageChange =
        some ((150 - 200) / |(200 : ℚ)| * 100) :=
  ⟨by norm_num, ((comparison_semantics 150 200).2.2 (by norm_num)).1⟩

/-- Claim C10: `calculateComparison` never returns the `no-data` trend. -/
theorem comparison_never_no_data (current previous : ℚ) :
    (calculateComparison current previous).trend = Trend.up ∨
      (calculateComparison current previous).trend = Trend.down ∨
      (calculateComparison current previous).trend = Trend.same := by
  by_cases hp : previous = 0 <;>
    · simp only [calculateComparison, hp, if_true, if_false]
      split_ifs <;> simp

/-- Claim C8: `normalizeTransactionInput` rejects non-positive or non-finite
amounts, unrecognized types, and unparseable dates. -/
theorem input_rejection (input : TransactionInput) (categories : List RCategory)
    (h : (∃ q, input.amount = JsNum.finite q ∧ q ≤ 0) ∨ input.amount = JsNum.nonFinite ∨
      isTransactionType input.type = false ∨ normalizeDate input.date = none) :
    normalizeTransactionInput input categories = none := by
  by_cases ht : isTransactionType input.type
  · rcases h with ⟨q, hq, hle⟩ | hnf | hty | hd
    · simp [normalizeTransactionInput, ht, hq, hle]
    · simp [normalizeTransactionInput, ht, hnf]
    · rw [ht] at hty; cases hty
    · rcases hamt : input.amount with q | _
      · by_cases hle : q ≤ 0
        · simp [normalizeTransactionInput, ht, hamt, hle]
        · simp [normalizeTransactionInput, ht, hamt, hle, hd]
      · simp [normalizeTransactionInput, ht, hamt]
  · simp [normalizeTransactionInput, ht]

/-- Witness for C8: the zero-amount creation input is rejected. -/
theorem input_rejection_witness :
    (∃ q, sampleZeroInput.amount = JsNum.finite q ∧ q ≤ 0) ∧
      normalizeTransactionInput sampleZeroInput [] = none :=
  ⟨⟨0, rfl, by norm_num⟩,
    input_rejection sampleZeroInput [] (Or.inl ⟨0, rfl, by norm_num⟩)⟩

/-- Every normalized period has a non-empty id. -/
theorem normalizePeriods_id_ne (now : String) (ps : List RPeriod) :
    ∀ p ∈ normalizePeriods now ps, p.id ≠ "" := by
  intro p hp
  unfold normalizePeriods at hp
  rcases List.mem_map.mp hp with ⟨q, hq, rfl⟩
  have := List.of_mem_filter hq
  simp only [decide_eq_true_eq] at this
  exact this.1

/-- Claim C9: after `normalizeTreasurySnapshot`, `settings.currentPeriodId`
is the input value when that matches a normalized period's id, otherwise the
first normalized period's id, otherwise `null`; in particular it always
names an existing normalized period or is `null`. -/
theorem current_period_repair (S : TreasurySnapshot) (now : String) :
    ((normalizeTreasurySnapshot now S).1.settings.currentPeriodId =
        match S.settings.currentPeriodId with
        | some pid =>
          if pid ∈ (normalizeTreasurySnapshot now S).1.periods.map (fun p => p.id) then some pid
          else (normalizeTreasurySnapshot now S).1.periods.head?.map (fun p => p.id)
        | none => (normalizeTreasurySnapshot now S).1.periods.head?.map (fun p => p.id)) ∧
      ((normalizeTreasurySnapshot now S).1.settings.currentPeriodId = none ∨
        (normalizeTreasurySnapshot now S).1.settings.currentPeriodId ∈
          (normalizeTreasurySnapshot now S).1.periods.map (fun p => some p.id)) := by
  have hper : (normalizeTreasurySnapshot now S).1.periods = normalizePeriods now S.periods := rfl
  have hcp : (normalizeTreasurySnapshot now S).1.settings.currentPeriodId =
      match S.settings.currentPeriodId with
      | some pid =>
        if pid ≠ "" ∧ pid ∈ (normalizePeriods now S.periods).map (fun p => p.id) then some pid
        else (normalizePeriods now S.periods).head?.map (fun p => p.id)
      | none => (normalizePeriods now S.periods).head?.map (fun p => p.id) := rfl
  constructor
  · rw [hcp, hper]
    cases hin : S.settings.currentPeriodId with
    | none => rfl
    | some pid =>
      by_cases hmem : pid ∈ (normalizePeriods now S.periods).map (fun p => p.id)
      · have hne : pid ≠ "" := by
          rcases List.mem_map.mp hmem with ⟨p, hp, rfl⟩
          exact normalizePeriods_id_ne now S.periods p hp
        simp [hmem, hne]
      · simp [hmem]
  · rw [hcp, hper]
    have hhead : ∀ o : Option String,
        o = (normalizePeriods now S.periods).head?.map (fun p => p.id) →
        o = none ∨ o ∈ (normalizePeriods now S.periods).map (fun p => some p.id) := by
      intro o ho
      cases hps : normalizePeriods now S.periods with
      | nil => left; rw [ho, hps]; rfl
      | cons p rest =>
        right
        rw [ho, hps]
        simp
    cases hin : S.settings.currentPeriodId with
    | none => exact hhead _ rfl
    | some pid =>
      by_cases hcond : pid ≠ "" ∧ pid ∈ (normalizePeriods now S.periods).map (fun p => p.id)
      · right
        simp only [if_pos hcond]
        rcases List.mem_map.mp hcond.2 with ⟨p, hp, hpid⟩
        exact List.mem_map.mpr ⟨p, hp, by rw [hpid]⟩
      · simp only [if_neg hcond]
        exact hhead _ rfl

/-! ### Week partition machinery for claim C5 -/

/-- Summing a mapped filter is summing an `if` over the whole list. -/
theorem sum_map_filter_eq (p : Transaction → Bool) (f : Transaction → ℚ) (l : List Transaction) :
    ((l.filter p).map f).sum = (l.map (fun t => if p t then f t else 0)).sum := by
  induction l with
  | nil => simp
  | cons t rest ih =>
    by_cases hp : p t <;> simp [List.filter_cons, hp, ih]

/-- A `List.range` sum is a `Finset.range` sum. -/
theorem list_range_map_sum (n : ℕ) (F : ℕ → ℚ) :
    ((List.range n).map F).sum = ∑ i ∈ Finset.range n, F i := by
  induction n with
  | zero => simp
  | succ k ih => rw [List.range_succ, Finset.sum_range_succ, List.map_append, List.sum_append, ih]; simp

/-- Exchanging a `Finset` sum with a list sum. -/
theorem sum_swap_list (l : List Transaction) (G : ℕ → Transaction → ℚ) (s : Finset ℕ) :
    ∑ i ∈ s, (l.map (G i)).sum = (l.map (fun t => ∑ i ∈ s, G i t)).sum := by
  induction l with
  | nil => simp
  | cons t rest ih =>
    simp only [List.map_cons, List.sum_cons, Finset.sum_add_distrib, ih]

/-- Day `d` of the interval `[s, e]` lies in exactly one of the clipped
Monday-start weeks that `eachWeekOfInterval` enumerates; a day outside
`[s, e]` lies in none of them. -/
theorem week_ite_sum (c : ℚ) (s e d : ℤ) (hse : s ≤ e) :
    (∑ i ∈ Finset.range ((mondayOnOrBefore e - mondayOnOrBefore s) / 7 + 1).toNat,
        if (if mondayOnOrBefore s + 7 * (i : ℤ) < s then s
              else mondayOnOrBefore s + 7 * (i : ℤ)) ≤ d ∧
            d ≤ (if e < mondayOnOrBefore s + 7 * (i : ℤ) + 6 then e
              else mondayOnOrBefore s + 7 * (i : ℤ) + 6) then c else 0)
      = if s ≤ d ∧ d ≤ e then c else 0 := by
  by_cases hd : s ≤ d ∧ d ≤ e
  · rw [if_pos hd]
    obtain ⟨i₀, hi₀mem, hi₀P, huniq⟩ :
        ∃ i₀ : ℕ,
          i₀ ∈ Finset.range ((mondayOnOrBefore e - mondayOnOrBefore s) / 7 + 1).toNat ∧
          ((if mondayOnOrBefore s + 7 * (i₀ : ℤ) < s then s
              else mondayOnOrBefore s + 7 * (i₀ : ℤ)) ≤ d ∧
            d ≤ (if e < mondayOnOrBefore s + 7 * (i₀ : ℤ) + 6 then e
              else mondayOnOrBefore s + 7 * (i₀ : ℤ) + 6)) ∧
          ∀ i ∈ Finset.range ((mondayOnOrBefore e - mondayOnOrBefore s) / 7 + 1).toNat,
            i ≠ i₀ →
            ¬ ((if mondayOnOrBefore s + 7 * (i : ℤ) < s then s
                  else mondayOnOrBefore s + 7 * (i : ℤ)) ≤ d ∧
              d ≤ (if e < mondayOnOrBefore s + 7 * (i : ℤ) + 6 then e
                else mondayOnOrBefore s + 7 * (i : ℤ) + 6)) := by
      have hdvd : (7 : ℤ) ∣ (mondayOnOrBefore d - mondayOnOrBefore s) := by
        simp only [mondayOnOrBefore]; omega
      obtain ⟨k, hk⟩ := hdvd
      have hdvd2 : (7 : ℤ) ∣ (mondayOnOrBefore e - mondayOnOrBefore s) := by
        simp only [mondayOnOrBefore]; omega
      obtain ⟨j, hj⟩ := hdvd2
      refine ⟨k.toNat, ?_, ?_, ?_⟩
      · rw [Finset.mem_range, hj]
        simp only [mondayOnOrBefore] at hk hj ⊢
        omega
      · simp only [mondayOnOrBefore] at hk ⊢
        split_ifs <;> omega
      · intro i hi hne
        rw [Finset.mem_range, hj] at hi
        simp only [mondayOnOrBefore] at hk hj hi ⊢
        split_ifs <;> omega
    rw [Finset.sum_eq_single_of_mem i₀ hi₀mem
      (fun b hb hbne => by rw [if_neg (huniq b hb hbne)]), if_pos hi₀P]
  · rw [if_neg hd]
    apply Finset.sum_eq_zero
    intro i hi
    rw [if_neg]
    intro hP
    apply hd
    simp only [mondayOnOrBefore] at hP
    constructor <;> (rcases hP with ⟨h1, h2⟩; split_ifs at h1 h2 <;> omega)

/-- Distributing a generic per-transaction total over the enumerated weeks:
clipped Monday-start weeks partition the interval `[s, e]`. -/
theorem weekly_field_sum (txs : List Transaction) (g : Transaction → ℚ) (s e : ℤ)
    (hse : s ≤ e) :
    ((List.range ((mondayOnOrBefore e - mondayOnOrBefore s) / 7 + 1).toNat).map (fun (i : ℕ) =>
        ((getTransactionsForPeriod txs
            (if mondayOnOrBefore s + 7 * (i : ℤ) < s then s else mondayOnOrBefore s + 7 * (i : ℤ))
            (if e < mondayOnOrBefore s + 7 * (i : ℤ) + 6 then e
              else mondayOnOrBefore s + 7 * (i : ℤ) + 6)).map g).sum)).sum
      = ((getTransactionsForPeriod txs s e).map g).sum := by
  rw [list_range_map_sum]
  have step1 : ∀ i : ℕ,
      ((getTransactionsForPeriod txs
          (if mondayOnOrBefore s + 7 * (i : ℤ) < s then s else mondayOnOrBefore s + 7 * (i : ℤ))
          (if e < mondayOnOrBefore s + 7 * (i : ℤ) + 6 then e
            else mondayOnOrBefore s + 7 * (i : ℤ) + 6)).map g).sum
        = (txs.map (fun t =>
            if inInterval (parseDay t.date)
                (if mondayOnOrBefore s + 7 * (i : ℤ) < s then s
                  else mondayOnOrBefore s + 7 * (i : ℤ))
                (if e < mondayOnOrBefore s + 7 * (i : ℤ) + 6 then e
                  else mondayOnOrBefore s + 7 * (i : ℤ) + 6) then g t else 0)).sum := by
    intro i
    unfold getTransactionsForPeriod
    rw [sum_map_filter_eq]
  rw [Finset.sum_congr rfl (fun i _ => step1 i), sum_swap_list]
  unfold getTransactionsForPeriod
  rw [sum_map_filter_eq]
  apply congrArg List.sum
  apply List.map_congr_left
  intro t _
  cases hpd : parseDay t.date with
  | none => simp [inInterval, hpd]
  | some d =>
    simp only [inInterval, hpd, decide_eq_true_eq]
    exact week_ite_sum (g t) s e d hse

/-- `getWeeklyBreakdown` in explicit form when no clipping to today occurs
(the queried month is not the clock's current month). -/
theorem getWeeklyBreakdown_not_same (transactions : List Transaction) (month today : CivilDate)
    (h : isSameMonth month today = false)
    (hse : dayNumber (startOfMonth month) ≤ dayNumber (endOfMonth month)) :
    getWeeklyBreakdown transactions month today =
      (List.range ((mondayOnOrBefore (dayNumber (endOfMonth month)) -
          mondayOnOrBefore (dayNumber (startOfMonth month))) / 7 + 1).toNat).map
        (fun (index : ℕ) =>
          let weekStart := mondayOnOrBefore (dayNumber (startOfMonth month)) + 7 * (index : ℤ)
          let weekEnd := weekStart + 6
          let actualEnd := if dayNumber (endOfMonth month) < weekEnd
            then dayNumber (endOfMonth month) else weekEnd
          let actualStart := if weekStart < dayNumber (startOfMonth month)
            then dayNumber (startOfMonth month) else weekStart
          let weekTransactions := getTransactionsForPeriod transactions actualStart actualEnd
          let income := (weekTransactions.filter
            (fun t => t.type = TransactionType.income)).foldl (fun sum t => sum + t.amount) 0
          let donations := (weekTransactions.filter
            (fun t => t.type = TransactionType.donation)).foldl (fun sum t => sum + t.amount) 0
          let investments := weekTransactions.foldl (fun sum t => sum + getInvestmentAmount t) 0
          let expenses := (weekTransactions.filter
            (fun t => t.type = TransactionType.expense)).foldl (fun sum t => sum + t.amount) 0
          { weekStart := actualStart, weekEnd := actualEnd, weekNumber := index + 1,
            income, donations, investments, expenses,
            net := income + donations + investments - expenses }) := by
  unfold getWeeklyBreakdown
  simp only [h, Bool.false_eq_true, if_false]
  rw [if_neg (not_lt.mpr hse)]

/-- Claim C5: for a month that lies strictly in the past of the clock date
(`today` is a valid civil date after the month's end, so no clipping to
today occurs), each of the four flow fields summed over all
`getWeeklyBreakdown` entries equals the corresponding `getMonthlyStats`
field: the clipped weeks partition the month's dates with no overlap and no
gap. -/
theorem weekly_sum_reconciliation (transactions : List Transaction) (month today : CivilDate)
    (F : ℚ) (A : List Transaction)
    (hvalid : 1 ≤ today.day ∧ today.day ≤ daysInMonth today.year today.month)
    (hpast : dayNumber (endOfMonth month) < dayNumber today) :
    ((getWeeklyBreakdown transactions month today).map (fun w => w.income)).sum =
        (getMonthlyStats transactions month F A).income ∧
      ((getWeeklyBreakdown transactions month today).map (fun w => w.donations)).sum =
        (getMonthlyStats transactions month F A).donations ∧
      ((getWeeklyBreakdown transactions month today).map (fun w => w.investments)).sum =
        (getMonthlyStats transactions month F A).investments ∧
      ((getWeeklyBreakdown transactions month today).map (fun w => w.expenses)).sum =
        (getMonthlyStats transactions month F A).expenses := by
  have hdim : 1 ≤ daysInMonth month.year month.month := by
    unfold daysInMonth
    split_ifs <;> norm_num
  have hse : dayNumber (startOfMonth month) ≤ dayNumber (endOfMonth month) := by
    simp only [dayNumber, startOfMonth, endOfMonth]
    omega
  have hsame : isSameMonth month today = false := by
    by_contra hns
    have htrue : isSameMonth month today = true := by
      cases hsm : isSameMonth month today
      · exact absurd hsm hns
      · rfl
    have hym : month.year = today.year ∧ month.month = today.month := by
      simpa [isSameMonth] using htrue
    rcases hym with ⟨hy, hm⟩
    rcases hvalid with ⟨h1, h2⟩
    simp only [dayNumber, endOfMonth] at hpast
    rw [hy, hm] at hpast
    omega
  refine ⟨?_, ?_, ?_, ?_⟩
  · rw [getWeeklyBreakdown_not_same transactions month today hsame hse, List.map_map]
    refine Eq.trans (congrArg List.sum (List.map_congr_left (fun i _ => ?_)))
      (Eq.trans (weekly_field_sum transactions
        (fun t => if t.type = TransactionType.income then t.amount else 0)
        (dayNumber (startOfMonth month)) (dayNumber (endOfMonth month)) hse) ?_)
    · simp only [Function.comp]
      rw [foldl_add_eq, zero_add, sum_map_filter_eq]
      simp only [decide_eq_true_eq]
    · show _ = ((getTransactionsForPeriod transactions (dayNumber (startOfMonth month))
        (dayNumber (endOfMonth month))).filter (fun t => t.type = TransactionType.income)).foldl
          (fun sum t => sum + t.amount) 0
      rw [foldl_add_eq, zero_add, sum_map_filter_eq]
      simp only [decide_eq_true_eq]
  · rw [getWeeklyBreakdown_not_same transactions month today hsame hse, List.map_map]
    refine Eq.trans (congrArg List.sum (List.map_congr_left (fun i _ => ?_)))
      (Eq.trans (weekly_field_sum transactions
        (fun t => if t.type = TransactionType.donation then t.amount else 0)
        (dayNumber (startOfMonth month)) (dayNumber (endOfMonth month)) hse) ?_)
    · simp only [Function.comp]
      rw [foldl_add_eq, zero_add, sum_map_filter_eq]
      simp only [decide_eq_true_eq]
    · show _ = ((getTransactionsForPeriod transactions (dayNumber (startOfMonth month))
        (dayNumber (endOfMonth month))).filter (fun t => t.type = TransactionType.donation)).foldl
          (fun sum t => sum + t.amount) 0
      rw [foldl_add_eq, zero_add, sum_map_filter_eq]
      simp only [decide_eq_true_eq]
  · rw [getWeeklyBreakdown_not_same transactions month today hsame hse, List.map_map]
    refine Eq.trans (congrArg List.sum (List.map_congr_left (fun i _ => ?_)))
      (Eq.trans (weekly_field_sum transactions getInvestmentAmount
        (dayNumber (startOfMonth month)) (dayNumber (endOfMonth month)) hse) ?_)
    · simp only [Function.comp]
      rw [foldl_add_eq, zero_add]
    · show _ = (getTransactionsForPeriod transactions (dayNumber (startOfMonth month))
        (dayNumber (endOfMonth month))).foldl (fun sum t => sum + getInvestmentAmount t) 0
      rw [foldl_add_eq, zero_add]
  · rw [getWeeklyBreakdown_not_same transactions month today hsame hse, List.map_map]
    refine Eq.trans (congrArg List.sum (List.map_congr_left (fun i _ => ?_)))
      (Eq.trans (weekly_field_sum transactions
        (fun t => if t.type = TransactionType.expense then t.amount else 0)
        (dayNumber (startOfMonth month)) (dayNumber (endOfMonth month)) hse) ?_)
    · simp only [Function.comp]
      rw [foldl_add_eq, zero_add, sum_map_filter_eq]
      simp only [decide_eq_true_eq]
    · show _ = ((getTransactionsForPeriod transactions (dayNumber (startOfMonth month))
        (dayNumber (endOfMonth month))).filter (fun t => t.type = TransactionType.expense)).foldl
          (fun sum t => sum + t.amount) 0
      rw [foldl_add_eq, zero_add, sum_map_filter_eq]
      simp only [decide_eq_true_eq]

/-- Witness for C5: January 2024 (weeks 19723..19753) viewed from
2024-02-10, with the spec's concrete January transactions. -/
theorem weekly_sum_reconciliation_witness :
    ((1 ≤ (CivilDate.mk 2024 2 10).day ∧
        (CivilDate.mk 2024 2 10).day ≤
          daysInMonth (CivilDate.mk 2024 2 10).year (CivilDate.mk 2024 2 10).month) ∧
      dayNumber (endOfMonth (CivilDate.mk 2024 1 15)) < dayNumber (CivilDate.mk 2024 2 10)) ∧
      ((getWeeklyBreakdown [sampleIncomeTx, sampleExpenseTx] (CivilDate.mk 2024 1 15)
          (CivilDate.mk 2024 2 10)).map (fun w => w.income)).sum =
        (getMonthlyStats [sampleIncomeTx, sampleExpenseTx] (CivilDate.mk 2024 1 15) 500
          [sampleIncomeTx, sampleExpenseTx]).income :=
  ⟨⟨⟨by decide, by decide⟩, by decide⟩,
    (weekly_sum_reconciliation [sampleIncomeTx, sampleExpenseTx] (CivilDate.mk 2024 1 15)
      (CivilDate.mk 2024 2 10) 500 [sampleIncomeTx, sampleExpenseTx]
      ⟨by decide, by decide⟩ (by decide)).1⟩

/-! ### Claim C1: determinism relative to the clock -/

/-- Counterexample to C1 as stated: two calls to `getWeeklyBreakdown` with
identical input values (empty transaction list, January 2024) but different
clock readings (2024-01-03 versus 2024-02-10) return different outputs,
because the source reads `new Date()` — the clock is an implicit input. -/
theorem core_determinism_counterexample :
    (decide (getWeeklyBreakdown [] (CivilDate.mk 2024 1 15) (CivilDate.mk 2024 1 3) =
        getWeeklyBreakdown [] (CivilDate.mk 2024 1 15) (CivilDate.mk 2024 2 10))) = false := by
  decide

/-- `normalizeTransactionsStep` does not read the clock when the record
carries a `createdAt`. -/
theorem step_now_indep (now₁ now₂ : String) (cs : List RCategory)
    (m : List (String × RCategory)) (t : RTransaction) (hne : t.createdAt ≠ "") :
    normalizeTransactionsStep now₁ cs m t = normalizeTransactionsStep now₂ cs m t := by
  unfold normalizeTransactionsStep
  simp [hne]

/-- The `normalizeTransactions` loop does not read the clock when every
record carries a `createdAt`. -/
theorem go_now_indep (now₁ now₂ : String) :
    ∀ (ts : List RTransaction) (cs : List RCategory) (m : List (String × RCategory)),
      (∀ t ∈ ts, t.createdAt ≠ "") →
      normalizeTransactionsGo now₁ ts cs m = normalizeTransactionsGo now₂ ts cs m := by
  intro ts
  induction ts with
  | nil => intro cs m _; rfl
  | cons t rest ih =>
    intro cs m hall
    have hstep := step_now_indep now₁ now₂ cs m t (hall t (List.mem_cons_self t rest))
    unfold normalizeTransactionsGo
    rw [hstep]
    cases h : normalizeTransactionsStep now₂ cs m t with
    | none => exact ih cs m (fun u hu => hall u (List.mem_cons_of_mem t hu))
    | some r =>
      obtain ⟨t', cs', m'⟩ := r
      show (t' :: (normalizeTransactionsGo now₁ rest cs' m').1,
            (normalizeTransactionsGo now₁ rest cs' m').2) =
          (t' :: (normalizeTransactionsGo now₂ rest cs' m').1,
            (normalizeTransactionsGo now₂ rest cs' m').2)
      rw [ih cs' m' (fun u hu => hall u (List.mem_cons_of_mem t hu))]

/-- `normalizePeriods` does not read the clock when every period carries a
`createdAt`. -/
theorem normalizePeriods_now_indep (now₁ now₂ : String) (ps : List RPeriod)
    (h : ∀ p ∈ ps, p.createdAt ≠ "") :
    normalizePeriods now₁ ps = normalizePeriods now₂ ps := by
  unfold normalizePeriods
  apply List.map_congr_left
  intro p hp
  have hne : p.createdAt ≠ "" := h p (List.mem_of_mem_filter hp)
  simp [hne]

/-- Amended claim C1: the core functions are deterministic once the clock
reading is counted among the inputs.  `calculateBalance`, `getMonthlyStats`,
`calculateComparison` and `normalizeTransactionInput` take no clock input at
all (they are pure functions of their arguments by construction);
`getWeeklyBreakdown` depends on the clock only through current-month
clipping, and `normalizeTreasurySnapshot` only through defaulting missing
`createdAt` timestamps. -/
theorem core_determinism_amended :
    (∀ (txs : List Transaction) (month t₁ t₂ : CivilDate),
        isSameMonth month t₁ = false → isSameMonth month t₂ = false →
        getWeeklyBreakdown txs month t₁ = getWeeklyBreakdown txs month t₂) ∧
      (∀ (now₁ now₂ : String) (S : TreasurySnapshot),
        (∀ t ∈ S.transactions, t.createdAt ≠ "") → (∀ p ∈ S.periods, p.createdAt ≠ "") →
        normalizeTreasurySnapshot now₁ S = normalizeTreasurySnapshot now₂ S) := by
  constructor
  · intro txs month t₁ t₂ h₁ h₂
    simp only [getWeeklyBreakdown, h₁, h₂, Bool.false_eq_true, if_false]
  · intro now₁ now₂ S htx hper
    have hgo := go_now_indep now₁ now₂ S.transactions (normalizeCategories S.categories)
      (mapOfList (normalizeCategories S.categories)) htx
    have hps := normalizePeriods_now_indep now₁ now₂ S.periods hper
    simp only [normalizeTreasurySnapshot, normalizeTransactions]
    simp only [hgo, hps]

/-- Witness for the amended C1 at concrete inputs. -/
theorem core_determinism_amended_witness :
    (isSameMonth (CivilDate.mk 2024 3 1) (CivilDate.mk 2024 1 3) = false ∧
        isSameMonth (CivilDate.mk 2024 3 1) (CivilDate.mk 2024 2 10) = false) ∧
      getWeeklyBreakdown [] (CivilDate.mk 2024 3 1) (CivilDate.mk 2024 1 3) =
        getWeeklyBreakdown [] (CivilDate.mk 2024 3 1) (CivilDate.mk 2024 2 10) :=
  ⟨⟨by decide, by decide⟩,
    core_determinism_amended.1 [] (CivilDate.mk 2024 3 1) (CivilDate.mk 2024 1 3)
      (CivilDate.mk 2024 2 10) (by decide) (by decide)⟩

/-! ### Claim C3: category redirection -/

/-- Counterexample to C3 as stated: on `c3Snapshot` (where a pre-existing
category already bears the synthetic id `cat-uncategorized-income` but has
type `expense` and name `X`), the surviving income transaction is redirected
to a category of the wrong type and name. -/
theorem category_redirection_counterexample :
    (decide (∀ t ∈ (normalizeTreasurySnapshot "2024" c3Snapshot).1.transactions,
        ∃ c ∈ (normalizeTreasurySnapshot "2024" c3Snapshot).1.categories,
          c.id = t.categoryId ∧ c.type = t.type ∧ c.name = "Sin categoría")) = false := by
  decide

/-- The synthetic id stem is left-cancellable. -/
theorem stem_cancel {a b : String} (h : UNCATEGORIZED_STEM ++ a = UNCATEGORIZED_STEM ++ b) :
    a = b := by
  have hd := congrArg String.data h
  simp only [String.data_append] at hd
  exact String.ext (List.append_cancel_left hd)

/-- `Map.get` after `Map.set`. -/
theorem mapGet_set (m : List (String × RCategory)) (k : String) (v : RCategory) (k' : String) :
    mapGet (mapSet m k v) k' = if k' = k then some v else mapGet m k' := by
  unfold mapGet mapSet
  by_cases h : k' = k
  · rw [if_pos h, List.find?_cons_of_pos]
    · rfl
    · simp [h]
  · rw [if_neg h, List.find?_cons_of_neg]
    simpa using Ne.symm h

/-- Entries of the initial category map are members of the category list
keyed by their own id. -/
theorem mapOfList_sound (cs : List RCategory) (k : String) (c : RCategory)
    (h : mapGet (mapOfList cs) k = some c) : c ∈ cs ∧ c.id = k := by
  unfold mapGet mapOfList at h
  rcases Option.map_eq_some'.mp h with ⟨e, hfind, hec⟩
  have hpred := List.find?_some hfind
  have hmem := List.mem_of_find?_eq_some hfind
  rw [List.mem_reverse] at hmem
  rcases List.mem_map.mp hmem with ⟨cat, hcat, hecat⟩
  subst hecat
  simp only [decide_eq_true_eq] at hpred
  rw [← hec]
  exact ⟨hcat, hpred⟩

/-- `normalizeCategories` invents no ids. -/
theorem normalizeCategoriesGo_ids :
    ∀ (seen : List String) (cs : List RCategory) (c : RCategory),
      c ∈ normalizeCategoriesGo seen cs → ∃ c0 ∈ cs, c.id = c0.id := by
  intro seen cs
  induction cs generalizing seen with
  | nil => intro c hc; cases hc
  | cons c0 rest ih =>
    intro c hc
    unfold normalizeCategoriesGo at hc
    by_cases h1 : c0.id = "" ∨ c0.name = ""
    · rw [if_pos h1] at hc
      rcases ih seen c hc with ⟨d, hd, he⟩
      exact ⟨d, List.mem_cons_of_mem _ hd, he⟩
    rw [if_neg h1] at hc
    by_cases h2 : ¬ isTransactionType c0.type
    · rw [if_pos h2] at hc
      rcases ih seen c hc with ⟨d, hd, he⟩
      exact ⟨d, List.mem_cons_of_mem _ hd, he⟩
    rw [if_neg h2] at hc
    by_cases h3 : c0.id ∈ seen
    · rw [if_pos h3] at hc
      rcases ih seen c hc with ⟨d, hd, he⟩
      exact ⟨d, List.mem_cons_of_mem _ hd, he⟩
    rw [if_neg h3] at hc
    rcases List.mem_cons.mp hc with h | h
    · exact ⟨c0, List.mem_cons_self _ _, by rw [h]⟩
    · rcases ih (c0.id :: seen) c h with ⟨d, hd, he⟩
      exact ⟨d, List.mem_cons_of_mem _ hd, he⟩

/-- What `ensureUncategorizedCategory` returns: either the first category
already carrying the synthetic id, or a freshly created uncategorized
category appended to the list; either way the result carries the synthetic
id. -/
theorem ensure_spec (cs : List RCategory) (ty : String) :
    ((ensureUncategorizedCategory cs ty).1 = cs ∧
        (ensureUncategorizedCategory cs ty).2 ∈ cs ∨
      (ensureUncategorizedCategory cs ty).1 = cs ++ [(ensureUncategorizedCategory cs ty).2] ∧
        (ensureUncategorizedCategory cs ty).2 =
          { id := UNCATEGORIZED_STEM ++ ty, name := "Sin categoría", type := ty,
            isDefault := some true }) ∧
      (ensureUncategorizedCategory cs ty).2.id = UNCATEGORIZED_STEM ++ ty := by
  unfold ensureUncategorizedCategory
  cases hf : cs.find? (fun category => category.id = UNCATEGORIZED_STEM ++ ty) with
  | none => exact ⟨Or.inr ⟨rfl, rfl⟩, rfl⟩
  | some ex =>
    have hpred := List.find?_some hf
    simp only [decide_eq_true_eq] at hpred
    exact ⟨Or.inl ⟨rfl, List.mem_of_find?_eq_some hf⟩, hpred⟩

/-- A record dropped by the `normalizeTransactions` loop fails one of the
validity guards. -/
theorem step_none (now : String) (cs : List RCategory) (m : List (String × RCategory))
    (t : RTransaction) (h : normalizeTransactionsStep now cs m t = none) :
    passesGuards t = false := by
  unfold normalizeTransactionsStep at h
  unfold passesGuards
  split at h
  · rename_i hid
    simp [hid]
  split at h
  · rename_i hty
    simp [Bool.not_eq_true] at hty
    simp [hty]
  split at h
  · rename_i hamt
    simp [hamt]
  · rename_i q hamt
    split at h
    · rename_i hle
      simp [hamt, not_lt.mpr hle]
    · split at h
      · rename_i hd
        simp [hamt, hd]
      · cases h

/-- Inversion for a kept record of the `normalizeTransactions` loop: id and
type are preserved, and the category resolution either keeps the original
`categoryId` (which resolves in the map to a category of matching type and
changes nothing) or redirects to `ensureUncategorizedCategory`. -/
theorem step_some_inv (now : String) (cs : List RCategory) (m : List (String × RCategory))
    (t : RTransaction) (r : RTransaction × List RCategory × List (String × RCategory))
    (h : normalizeTransactionsStep now cs m t = some r) :
    r.1.id = t.id ∧ r.1.type = t.type ∧
      ((r.1.categoryId = t.categoryId ∧ r.2.1 = cs ∧ r.2.2 = m ∧
          ∃ c, mapGet m t.categoryId = some c ∧ c.type = t.type) ∨
        (r.1.categoryId = (ensureUncategorizedCategory cs t.type).2.id ∧
          r.2.1 = (ensureUncategorizedCategory cs t.type).1 ∧
          r.2.2 = mapSet m (ensureUncategorizedCategory cs t.type).2.id
            (ensureUncategorizedCategory cs t.type).2)) := by
  unfold normalizeTransactionsStep at h
  split at h
  · cases h
  split at h
  · cases h
  split at h
  · cases h
  rename_i q hamt
  split at h
  · cases h
  split at h
  · cases h
  rename_i nd hnd
  cases h
  refine ⟨rfl, rfl, ?_⟩
  cases hmg : mapGet m t.categoryId with
  | none =>
    right
    simp [hmg]
  | some c =>
    by_cases hct : c.type = t.type
    · left
      refine ⟨?_, ?_, ?_, c, rfl, hct⟩ <;> simp [hmg, hct]
    · right
      simp [hmg, hct]

/-- Main induction for claim C3 over the `normalizeTransactions` loop:
provided every category whose id carries the synthetic stem is a genuine
uncategorized category, the loop only appends categories, preserves that
property, keeps every guard-passing record, and leaves every kept record's
`categoryId` resolving to a category of its own type (with the placeholder
name whenever the id is the synthetic one). -/
theorem go_good (now : String) :
    ∀ (ts : List RTransaction) (cs : List RCategory) (m : List (String × RCategory)),
      (∀ k c, mapGet m k = some c → c ∈ cs ∧ c.id = k) →
      (∀ c ∈ cs, ∀ ty : String, c.id = UNCATEGORIZED_STEM ++ ty →
        c.type = ty ∧ c.name = "Sin categoría") →
      (∃ ext, (normalizeTransactionsGo now ts cs m).2 = cs ++ ext) ∧
        (∀ c ∈ (normalizeTransactionsGo now ts cs m).2, ∀ ty : String,
          c.id = UNCATEGORIZED_STEM ++ ty → c.type = ty ∧ c.name = "Sin categoría") ∧
        (∀ t ∈ ts, passesGuards t = true →
          ∃ t' ∈ (normalizeTransactionsGo now ts cs m).1, t'.id = t.id ∧ t'.type = t.type) ∧
        (∀ t' ∈ (normalizeTransactionsGo now ts cs m).1,
          ∃ c ∈ (normalizeTransactionsGo now ts cs m).2,
            c.id = t'.categoryId ∧ c.type = t'.type ∧
              (t'.categoryId = UNCATEGORIZED_STEM ++ t'.type → c.name = "Sin categoría")) := by
  intro ts
  induction ts with
  | nil =>
    intro cs m hmap hclean
    exact ⟨⟨[], by simp [normalizeTransactionsGo]⟩, hclean,
      fun t ht => absurd ht (List.not_mem_nil t),
      fun t' ht' => absurd ht' (List.not_mem_nil t')⟩
  | cons t rest ih =>
    intro cs m hmap hclean
    cases hstep : normalizeTransactionsStep now cs m t with
    | none =>
      have hout1 : (normalizeTransactionsGo now (t :: rest) cs m).1 =
          (normalizeTransactionsGo now rest cs m).1 := by
        simp only [normalizeTransactionsGo, hstep]
      have hout2 : (normalizeTransactionsGo now (t :: rest) cs m).2 =
          (normalizeTransactionsGo now rest cs m).2 := by
        simp only [normalizeTransactionsGo, hstep]
      obtain ⟨hext, hcl, hkeep, hlink⟩ := ih cs m hmap hclean
      rw [hout1, hout2]
      refine ⟨hext, hcl, ?_, hlink⟩
      intro u hu hpu
      rcases List.mem_cons.mp hu with rfl | hu'
      · rw [step_none now cs m u hstep] at hpu
        cases hpu
      · exact hkeep u hu' hpu
    | some r =>
      obtain ⟨t', cs', m'⟩ := r
      have hinv := step_some_inv now cs m t (t', cs', m') hstep
      obtain ⟨hid, hty, hres⟩ := hinv
      dsimp only at hid hty hres
      have hens := ensure_spec cs t.type
      -- category-state invariants after the step
      have hcsext : ∃ ext0, cs' = cs ++ ext0 := by
        rcases hres with ⟨_, hcs, _, _⟩ | ⟨_, hcs, _⟩
        · exact ⟨[], by simp [hcs]⟩
        · rcases hens.1 with ⟨he, _⟩ | ⟨he, _⟩
          · exact ⟨[], by simp [hcs, he]⟩
          · exact ⟨[(ensureUncategorizedCategory cs t.type).2], by rw [hcs, he]⟩
      have hclean' : ∀ c ∈ cs', ∀ ty : String, c.id = UNCATEGORIZED_STEM ++ ty →
          c.type = ty ∧ c.name = "Sin categoría" := by
        rcases hres with ⟨_, hcs, _, _⟩ | ⟨_, hcs, _⟩
        · rw [hcs]; exact hclean
        · rcases hens.1 with ⟨he, _⟩ | ⟨he, hcreated⟩
          · rw [hcs, he]; exact hclean
          · rw [hcs, he]
            intro c hc ty hcid
            rcases List.mem_append.mp hc with hcc | hcc
            · exact hclean c hcc ty hcid
            · rcases List.mem_singleton.mp hcc with rfl
              rw [hcreated] at hcid ⊢
              have : t.type = ty := stem_cancel hcid
              exact ⟨this, rfl⟩
      have hmap' : ∀ k c, mapGet m' k = some c → c ∈ cs' ∧ c.id = k := by
        rcases hcsext with ⟨ext0, hext0⟩
        rcases hres with ⟨_, hcs, hm, _⟩ | ⟨_, hcs, hm⟩
        · rw [hcs, hm]; exact hmap
        · rw [hm]
          intro k c hk
          rw [mapGet_set] at hk
          split_ifs at hk with hkk
          · cases hk
            constructor
            · rcases hens.1 with ⟨he, hemem⟩ | ⟨he, _⟩
              · rw [hcs, he]; exact hemem
              · rw [hcs, he]
                exact List.mem_append_right _ (List.mem_singleton_self _)
            · exact hens.2.trans (by rw [hkk, hens.2])
          · obtain ⟨hc1, hc2⟩ := hmap k c hk
            exact ⟨by rw [hext0]; exact List.mem_append_left _ hc1, hc2⟩
      have hgo : normalizeTransactionsGo now (t :: rest) cs m =
          (t' :: (normalizeTransactionsGo now rest cs' m').1,
            (normalizeTransactionsGo now rest cs' m').2) := by
        simp only [normalizeTransactionsGo, hstep]
      obtain ⟨⟨ext1, hext1⟩, hcl, hkeep, hlink⟩ := ih cs' m' hmap' hclean'
      rw [hgo]
      refine ⟨?_, hcl, ?_, ?_⟩
      · rcases hcsext with ⟨ext0, hext0⟩
        exact ⟨ext0 ++ ext1, by rw [hext1, hext0, List.append_assoc]⟩
      · intro u hu hpu
        rcases List.mem_cons.mp hu with rfl | hu'
        · exact ⟨t', List.mem_cons_self _ _, hid, hty⟩
        · rcases hkeep u hu' hpu with ⟨u', hu'', he⟩
          exact ⟨u', List.mem_cons_of_mem _ hu'', he⟩
      · intro u hu
        rcases List.mem_cons.mp hu with rfl | hu'
        · -- the head record: resolve its category in the final list
          have hfinmem : ∀ c ∈ cs', c ∈ (normalizeTransactionsGo now rest cs' m').2 := by
            intro c hc
            rw [hext1]
            exact List.mem_append_left _ hc
          rcases hres with ⟨hcid, hcs, _, c, hmg, hct⟩ | ⟨hcid, hcs, _⟩
          · obtain ⟨hcmem, hcidk⟩ := hmap _ c hmg
            have hcmem' : c ∈ cs' := by
              rcases hcsext with ⟨ext0, hext0⟩
              rw [hext0]
              exact List.mem_append_left _ hcmem
            refine ⟨c, hfinmem c hcmem', hcidk.trans hcid.symm, hct.trans hty.symm, ?_⟩
            intro hstem
            exact (hcl c (hfinmem c hcmem') u.type ((hcidk.trans hcid.symm).trans hstem)).2
          · have hcmem' : (ensureUncategorizedCategory cs t.type).2 ∈ cs' := by
              rcases hens.1 with ⟨he, hemem⟩ | ⟨he, _⟩
              · rw [hcs, he]; exact hemem
              · rw [hcs, he]
                exact List.mem_append_right _ (List.mem_singleton_self _)
            have hfin := hfinmem _ hcmem'
            have hcid' : (ensureUncategorizedCategory cs t.type).2.id = u.categoryId :=
              hcid.symm
            have hstem' : u.categoryId = UNCATEGORIZED_STEM ++ u.type :=
              (hcid.trans hens.2).trans (by rw [hty])
            have hgood := hcl _ hfin u.type (hcid'.trans hstem')
            exact ⟨_, hfin, hcid', hgood.1, fun _ => hgood.2⟩
        · exact hlink u hu'

/-- Amended claim C3: provided no input category already bears a synthetic
uncategorized id (`cat-uncategorized-<type>`), every guard-passing
transaction is kept (never dropped for category reasons), and every kept
transaction's `categoryId` resolves in the output category list to a
category whose type equals the transaction's type — with the "Sin
categoría" placeholder name whenever the id is the synthetic one (in
particular for every redirected transaction).  The proviso is forced by the
counterexample: a pre-existing category squatting on the synthetic id is
returned as-is by `ensureUncategorizedCategory`, whatever its type and
name. -/
theorem category_redirection_amended (S : TreasurySnapshot) (now : String)
    (hclean : ∀ c ∈ S.categories, ∀ ty : String, c.id ≠ UNCATEGORIZED_STEM ++ ty) :
    (∀ t ∈ S.transactions, passesGuards t = true →
        ∃ t' ∈ (normalizeTreasurySnapshot now S).1.transactions,
          t'.id = t.id ∧ t'.type = t.type) ∧
      (∀ t' ∈ (normalizeTreasurySnapshot now S).1.transactions,
        ∃ c ∈ (normalizeTreasurySnapshot now S).1.categories,
          c.id = t'.categoryId ∧ c.type = t'.type ∧
            (t'.categoryId = UNCATEGORIZED_STEM ++ t'.type → c.name = "Sin categoría")) := by
  have htx : (normalizeTreasurySnapshot now S).1.transactions =
      (normalizeTransactionsGo now S.transactions (normalizeCategories S.categories)
        (mapOfList (normalizeCategories S.categories))).1 := rfl
  have hcat : (normalizeTreasurySnapshot now S).1.categories =
      (normalizeTransactionsGo now S.transactions (normalizeCategories S.categories)
        (mapOfList (normalizeCategories S.categories))).2 := rfl
  have hclean0 : ∀ c ∈ normalizeCategories S.categories, ∀ ty : String,
      c.id = UNCATEGORIZED_STEM ++ ty → c.type = ty ∧ c.name = "Sin categoría" := by
    intro c hc ty hid
    rcases normalizeCategoriesGo_ids [] S.categories c hc with ⟨c0, hc0, he⟩
    exact absurd (he.symm.trans hid) (hclean c0 hc0 ty)
  have hmap0 : ∀ k c, mapGet (mapOfList (normalizeCategories S.categories)) k = some c →
      c ∈ normalizeCategories S.categories ∧ c.id = k :=
    fun k c h => mapOfList_sound _ k c h
  obtain ⟨_, _, hkeep, hlink⟩ := go_good now S.transactions (normalizeCategories S.categories)
    (mapOfList (normalizeCategories S.categories)) hmap0 hclean0
  rw [htx, hcat]
  exact ⟨hkeep, hlink⟩

/-- Witness for the amended C3 on a concrete snapshot whose categories stay
clear of the synthetic id stem. -/
theorem category_redirection_amended_witness :
    (∀ c ∈ c3CleanSnapshot.categories, ∀ ty : String, c.id ≠ UNCATEGORIZED_STEM ++ ty) ∧
      (∀ t' ∈ (normalizeTreasurySnapshot "2024" c3CleanSnapshot).1.transactions,
        ∃ c ∈ (normalizeTreasurySnapshot "2024" c3CleanSnapshot).1.categories,
          c.id = t'.categoryId ∧ c.type = t'.type ∧
            (t'.categoryId = UNCATEGORIZED_STEM ++ t'.type → c.name = "Sin categoría")) := by
  have hclean : ∀ c ∈ c3CleanSnapshot.categories, ∀ ty : String,
      c.id ≠ UNCATEGORIZED_STEM ++ ty := by
    intro c hc ty h
    simp only [c3CleanSnapshot, List.mem_singleton] at hc
    subst hc
    have h' : ("c-exp" : String) = UNCATEGORIZED_STEM ++ ty := h
    have hlen := congrArg String.length h'
    rw [String.length_append] at hlen
    rw [show ("c-exp" : String).length = 5 from by decide,
      show (UNCATEGORIZED_STEM : String).length = 18 from by decide] at hlen
    omega
  exact ⟨hclean, (category_redirection_amended c3CleanSnapshot "2024" hclean).2⟩

/-! ### Claim C2: normalizer idempotence -/

/-- `dropWhile` is idempotent. -/
theorem dropWhile_dropWhile (p : Char → Bool) (l : List Char) :
    (l.dropWhile p).dropWhile p = l.dropWhile p := by
  induction l with
  | nil => rfl
  | cons a t ih =>
    by_cases h : p a
    · simp [List.dropWhile_cons, h, ih]
    · simp [List.dropWhile_cons, h]

/-- The head surviving a `dropWhile` fails the predicate. -/
theorem dropWhile_head_false (p : Char → Bool) (l : List Char) (a : Char) (t : List Char)
    (h : l.dropWhile p = a :: t) : p a = false := by
  induction l with
  | nil => cases h
  | cons b r ih =>
    by_cases hb : p b
    · rw [List.dropWhile_cons, if_pos hb] at h
      exact ih h
    · rw [List.dropWhile_cons, if_neg hb] at h
      cases h
      simpa using hb

/-- Right-stripping only removes a suffix. -/
theorem reverse_dropWhile_prefix (p : Char → Bool) (x : List Char) :
    ∃ junk, x = (x.reverse.dropWhile p).reverse ++ junk := by
  refine ⟨(x.reverse.takeWhile p).reverse, ?_⟩
  calc x = x.reverse.reverse := (List.reverse_reverse x).symm
    _ = (x.reverse.takeWhile p ++ x.reverse.dropWhile p).reverse := by
        rw [List.takeWhile_append_dropWhile]
    _ = (x.reverse.dropWhile p).reverse ++ (x.reverse.takeWhile p).reverse := by
        rw [List.reverse_append]

/-- Right-stripping is idempotent. -/
theorem rstrip_idem (p : Char → Bool) (x : List Char) :
    ((((x.reverse.dropWhile p).reverse).reverse.dropWhile p).reverse) =
      (x.reverse.dropWhile p).reverse := by
  rw [List.reverse_reverse, dropWhile_dropWhile]

/-- Left-stripping after a full trim changes nothing. -/
theorem dropWhile_rstrip_dropWhile (p : Char → Bool) (l : List Char) :
    (((l.dropWhile p).reverse.dropWhile p).reverse).dropWhile p =
      ((l.dropWhile p).reverse.dropWhile p).reverse := by
  cases hR : ((l.dropWhile p).reverse.dropWhile p).reverse with
  | nil => rfl
  | cons a t =>
    obtain ⟨junk, hj⟩ := reverse_dropWhile_prefix p (l.dropWhile p)
    rw [hR] at hj
    have hpa : p a = false := dropWhile_head_false p l a (t ++ junk) (by rw [hj]; simp)
    rw [List.dropWhile_cons, if_neg (by simp [hpa])]

/-- Full trimming of a character list is idempotent. -/
theorem trim_list_idem (p : Char → Bool) (l : List Char) :
    ((((((l.dropWhile p).reverse.dropWhile p).reverse).dropWhile p).reverse).dropWhile p).reverse
      = ((l.dropWhile p).reverse.dropWhile p).reverse := by
  rw [dropWhile_rstrip_dropWhile p l, rstrip_idem p (l.dropWhile p)]

/-- JavaScript `trim` is idempotent. -/
theorem jsTrim_idem (s : String) : jsTrim (jsTrim s) = jsTrim s :=
  congrArg String.mk (trim_list_idem isWs s.data)

/-- The description rebuild is a fixed point of `trim`. -/
theorem jsTrimOpt_fix (s : Option String) : jsTrim (jsTrimOpt s) = jsTrimOpt s := by
  cases s with
  | none => decide
  | some v => exact jsTrim_idem v

/-- `trimToUndef` output fields are already trimmed. -/
theorem trimToUndef_fix (s : Option String) : optTrimmed (trimToUndef s) := by
  cases s with
  | none => trivial
  | some v =>
    show optTrimmed (if jsTrim v = "" then none else some (jsTrim v))
    by_cases h : jsTrim v = ""
    · rw [if_pos h]; trivial
    · rw [if_neg h]; exact ⟨jsTrim_idem v, h⟩

/-- `filter` is idempotent. -/
theorem filter_filter_same (p : String → Bool) (l : List String) :
    (l.filter p).filter p = l.filter p := by
  induction l with
  | nil => rfl
  | cons a t ih =>
    by_cases h : p a
    · simp [List.filter_cons, h, ih]
    · simp [List.filter_cons, h, ih]

/-- `normalizeDate` outputs canonical dates. -/
theorem normalizeDate_some (x y : DateStr) (h : normalizeDate x = some y) :
    ∃ d, y = DateStr.canon d := by
  cases x with
  | invalid s => cases h
  | canon d => cases h; exact ⟨d, rfl⟩
  | noncanon d raw => cases h; exact ⟨d, rfl⟩

/-- `normalizeDate`-with-fallback is a fixed point on its own output. -/
theorem normalizeDate_getD_fix (x : DateStr) :
    (normalizeDate ((normalizeDate x).getD x)).getD ((normalizeDate x).getD x) =
      (normalizeDate x).getD x := by
  cases x <;> rfl

/-- The synthetic uncategorized id is never the empty string. -/
theorem stem_append_ne_empty (ty : String) : UNCATEGORIZED_STEM ++ ty ≠ "" := by
  intro hh
  have hlen := congrArg String.length hh
  rw [String.length_append,
    show (UNCATEGORIZED_STEM : String).length = 18 from by decide,
    show ("" : String).length = 0 from by decide] at hlen
  omega

/-- The output of `normalizeCategories` is canonical: every record is valid
and trimmed, ids are distinct and avoid the `seen` set. -/
theorem normalizeCategoriesGo_canon :
    ∀ (seen : List String) (cs : List RCategory),
      (∀ c ∈ normalizeCategoriesGo seen cs, CanonCat c) ∧
        ((normalizeCategoriesGo seen cs).map (fun c => c.id)).Nodup ∧
        (∀ c ∈ normalizeCategoriesGo seen cs, c.id ∉ seen) := by
  intro seen cs
  induction cs generalizing seen with
  | nil => exact ⟨fun c hc => absurd hc (List.not_mem_nil c), List.nodup_nil, fun c hc =>
      absurd hc (List.not_mem_nil c)⟩
  | cons c0 rest ih =>
    unfold normalizeCategoriesGo
    by_cases h1 : c0.id = "" ∨ c0.name = ""
    · rw [if_pos h1]; exact ih seen
    rw [if_neg h1]
    by_cases h2 : ¬ isTransactionType c0.type
    · rw [if_pos h2]; exact ih seen
    rw [if_neg h2]
    by_cases h3 : c0.id ∈ seen
    · rw [if_pos h3]; exact ih seen
    rw [if_neg h3]
    push_neg at h1
    obtain ⟨hc0id, hc0name⟩ := h1
    obtain ⟨ihcanon, ihnodup, ihseen⟩ := ih (c0.id :: seen)
    refine ⟨?_, ?_, ?_⟩
    · intro c hc
      rcases List.mem_cons.mp hc with rfl | hc'
      · refine ⟨hc0id, ?_, ?_, ?_, rfl⟩
        · by_cases ht : jsTrim c0.name = ""
          · rw [if_pos ht]
            exact show ("Sin nombre" : String) ≠ "" by decide
          · rw [if_neg ht]; exact ht
        · by_cases ht : jsTrim c0.name = ""
          · rw [if_pos ht]
            exact show jsTrim "Sin nombre" = "Sin nombre" by decide
          · rw [if_neg ht]; exact jsTrim_idem c0.name
        · simpa using h2
      · exact ihcanon c hc'
    · rw [List.map_cons]
      refine List.nodup_cons.mpr ⟨?_, ihnodup⟩
      intro hmem
      rcases List.mem_map.mp hmem with ⟨c, hc, he⟩
      exact ihseen c hc (he ▸ List.mem_cons_self _ _)
    · intro c hc
      rcases List.mem_cons.mp hc with rfl | hc'
      · exact h3
      · exact fun hs => ihseen c hc' (List.mem_cons_of_mem _ hs)

/-- A canonical category list is a fixed point of `normalizeCategories`. -/
theorem normalizeCategoriesGo_fix :
    ∀ (seen : List String) (cs : List RCategory),
      (∀ c ∈ cs, CanonCat c) → ((cs.map (fun c => c.id)).Nodup) →
      (∀ c ∈ cs, c.id ∉ seen) →
      normalizeCategoriesGo seen cs = cs := by
  intro seen cs
  induction cs generalizing seen with
  | nil => intro _ _ _; rfl
  | cons c0 rest ih =>
    intro hcanon hnodup hseen
    obtain ⟨hid, hname, htrim, htype, hdef⟩ := hcanon c0 (List.mem_cons_self _ _)
    unfold normalizeCategoriesGo
    rw [if_neg (by push_neg; exact ⟨hid, hname⟩), if_neg (by rw [htype]; simp),
      if_neg (hseen c0 (List.mem_cons_self _ _))]
    have hnamefix : (if jsTrim c0.name = "" then "Sin nombre" else jsTrim c0.name) = c0.name := by
      rw [htrim, if_neg hname]
    have hdeffix : some (c0.isDefault.getD false) = c0.isDefault := by
      cases hd : c0.isDefault with
      | none => rw [hd] at hdef; cases hdef
      | some b => rfl
    rw [List.map_cons, List.nodup_cons] at hnodup
    have hrest : normalizeCategoriesGo (c0.id :: seen) rest = rest := by
      refine ih (c0.id :: seen) (fun c hc => hcanon c (List.mem_cons_of_mem _ hc)) hnodup.2 ?_
      intro c hc hs
      rcases List.mem_cons.mp hs with he | hs'
      · exact hnodup.1 (List.mem_map.mpr ⟨c, hc, he⟩)
      · exact hseen c (List.mem_cons_of_mem _ hc) hs'
    rw [hnamefix, hdeffix, hrest]

/-- `normalizeCategories` output is canonical. -/
theorem normalizeCategories_canon (cs : List RCategory) :
    CanonCats (normalizeCategories cs) :=
  ⟨(normalizeCategoriesGo_canon [] cs).1, (normalizeCategoriesGo_canon [] cs).2.1⟩

/-- `normalizeCategories` fixes canonical category lists. -/
theorem normalizeCategories_fix (cs : List RCategory) (h : CanonCats cs) :
    normalizeCategories cs = cs :=
  normalizeCategoriesGo_fix [] cs h.1 h.2 (fun c _ => List.not_mem_nil c.id)

/-- `ensureUncategorizedCategory` preserves canonicity of the category
list. -/
theorem ensure_canon (cs : List RCategory) (ty : String) (hcs : CanonCats cs)
    (hty : isTransactionType ty = true) :
    CanonCats (ensureUncategorizedCategory cs ty).1 := by
  unfold ensureUncategorizedCategory
  cases hf : cs.find? (fun category => category.id = UNCATEGORIZED_STEM ++ ty) with
  | some ex => exact hcs
  | none =>
    have hnotin : ∀ c ∈ cs, c.id ≠ UNCATEGORIZED_STEM ++ ty := by
      intro c hc
      have := List.find?_eq_none.mp hf c hc
      simpa using this
    constructor
    · intro c hc
      rcases List.mem_append.mp hc with h | h
      · exact hcs.1 c h
      · rcases List.mem_singleton.mp h with rfl
        exact ⟨stem_append_ne_empty ty,
          show ("Sin categoría" : String) ≠ "" by decide,
          show jsTrim "Sin categoría" = "Sin categoría" by decide, hty, rfl⟩
    · rw [List.map_append]
      refine List.Nodup.append hcs.2 (by simp) ?_
      intro a ha hb
      rcases List.mem_map.mp ha with ⟨c, hc, rfl⟩
      simp only [List.map_cons, List.map_nil, List.mem_singleton] at hb
      exact hnotin c hc hb

/-- With distinct ids, `find?` by a member's own id returns that member. -/
theorem find?_id_self (cs : List RCategory) (hnd : (cs.map (fun c => c.id)).Nodup)
    (c0 : RCategory) (h : c0 ∈ cs) :
    cs.find? (fun c => c.id = c0.id) = some c0 := by
  cases hf : cs.find? (fun c => c.id = c0.id) with
  | none =>
    exfalso
    have := List.find?_eq_none.mp hf c0 h
    simp at this
  | some d =>
    have hd := List.mem_of_find?_eq_some hf
    have hp := List.find?_some hf
    simp only [decide_eq_true_eq] at hp
    rw [List.inj_on_of_nodup_map hnd hd h hp]

/-- On a list with distinct ids, the last-wins category map agrees with
first-match `find?`. -/
theorem mapOfList_find (cs : List RCategory) (hnd : (cs.map (fun c => c.id)).Nodup)
    (k : String) :
    mapGet (mapOfList cs) k = cs.find? (fun c => c.id = k) := by
  cases hf : cs.find? (fun c => c.id = k) with
  | none =>
    have hno : ∀ c ∈ cs, ¬ (c.id = k) := by
      intro c hc
      have := List.find?_eq_none.mp hf c hc
      simpa using this
    unfold mapGet mapOfList
    rw [List.find?_eq_none.mpr ?_]
    · rfl
    · intro e he
      rw [List.mem_reverse] at he
      rcases List.mem_map.mp he with ⟨c, hc, rfl⟩
      simpa using hno c hc
  | some c =>
    have hcmem := List.mem_of_find?_eq_some hf
    have hcp := List.find?_some hf
    simp only [decide_eq_true_eq] at hcp
    unfold mapGet mapOfList
    cases hg : ((cs.map (fun category => (category.id, category))).reverse).find?
        (fun e => e.1 = k) with
    | none =>
      exfalso
      have hmem : (c.id, c) ∈ (cs.map (fun category => (category.id, category))).reverse := by
        rw [List.mem_reverse]
        exact List.mem_map.mpr ⟨c, hcmem, rfl⟩
      have := List.find?_eq_none.mp hg (c.id, c) hmem
      simp [hcp] at this
    | some e =>
      have hemem := List.mem_of_find?_eq_some hg
      have hep := List.find?_some hg
      simp only [decide_eq_true_eq] at hep
      rw [List.mem_reverse] at hemem
      rcases List.mem_map.mp hemem with ⟨d, hd, rfl⟩
      have hdc : d = c := List.inj_on_of_nodup_map hnd hd hcmem (hep.trans hcp.symm)
      simp [hdc]

/-- Full field-level inversion for a kept record of the
`normalizeTransactions` loop. -/
theorem step_some_fields (now : String) (cs : List RCategory) (m : List (String × RCategory))
    (t : RTransaction) (r : RTransaction × List RCategory × List (String × RCategory))
    (h : normalizeTransactionsStep now cs m t = some r) :
    ∃ q nd, t.amount = JsNum.finite q ∧ ¬ q ≤ 0 ∧ normalizeDate t.date = some nd ∧
      t.id ≠ "" ∧ isTransactionType t.type = true ∧
      r.1 = { t with
        amount := JsNum.finite q,
        date := nd,
        categoryId := r.1.categoryId,
        description := some (jsTrimOpt t.description),
        tags := t.tags.map (fun l => l.filter (fun tag => tag ≠ "")),
        paymentMethod := trimToUndef t.paymentMethod,
        receipt := trimToUndef t.receipt,
        createdAt := if t.createdAt = "" then now else t.createdAt,
        updatedAt := if t.updatedAt = "" then (if t.createdAt = "" then now else t.createdAt)
          else t.updatedAt } := by
  unfold normalizeTransactionsStep at h
  split at h
  · cases h
  rename_i hid
  split at h
  · cases h
  rename_i hty
  split at h
  · cases h
  rename_i q hamt
  split at h
  · cases h
  rename_i hle
  split at h
  · cases h
  rename_i nd hnd
  cases h
  exact ⟨q, nd, hamt, hle, hnd, hid, by simpa using hty, rfl⟩

/-- Main induction for claim C2, pass 1: starting from a canonical category
list, the loop returns a canonical category list extending the input, and
every output record is canonical relative to it. -/
theorem go_canon (now : String) (hnow : now ≠ "") :
    ∀ (ts : List RTransaction) (cs : List RCategory) (m : List (String × RCategory)),
      CanonCats cs →
      (∀ k c, mapGet m k = some c → c ∈ cs ∧ c.id = k) →
      CanonCats (normalizeTransactionsGo now ts cs m).2 ∧
        (∃ ext, (normalizeTransactionsGo now ts cs m).2 = cs ++ ext) ∧
        (∀ t' ∈ (normalizeTransactionsGo now ts cs m).1,
          CanonTx (normalizeTransactionsGo now ts cs m).2 t') := by
  intro ts
  induction ts with
  | nil =>
    intro cs m hcs hmap
    exact ⟨hcs, ⟨[], by simp [normalizeTransactionsGo]⟩,
      fun t' ht' => absurd ht' (List.not_mem_nil t')⟩
  | cons t rest ih =>
    intro cs m hcs hmap
    cases hstep : normalizeTransactionsStep now cs m t with
    | none =>
      have hout : normalizeTransactionsGo now (t :: rest) cs m =
          normalizeTransactionsGo now rest cs m := by
        simp only [normalizeTransactionsGo, hstep]
      rw [hout]
      exact ih cs m hcs hmap
    | some r =>
      obtain ⟨t', cs', m'⟩ := r
      have hgo : normalizeTransactionsGo now (t :: rest) cs m =
          (t' :: (normalizeTransactionsGo now rest cs' m').1,
            (normalizeTransactionsGo now rest cs' m').2) := by
        simp only [normalizeTransactionsGo, hstep]
      obtain ⟨hid, hty, hres⟩ := step_some_inv now cs m t (t', cs', m') hstep
      dsimp only at hid hty hres
      obtain ⟨q, nd, hamt, hle, hnd, hidne, htyval, hrec⟩ :=
        step_some_fields now cs m t (t', cs', m') hstep
      dsimp only at hrec
      have hens := ensure_spec cs t.type
      have hcs' : CanonCats cs' := by
        rcases hres with ⟨_, hcseq, _, _⟩ | ⟨_, hcseq, _⟩
        · rw [hcseq]; exact hcs
        · rw [hcseq]; exact ensure_canon cs t.type hcs htyval
      have hcsext : ∃ ext0, cs' = cs ++ ext0 := by
        rcases hres with ⟨_, hcseq, _, _⟩ | ⟨_, hcseq, _⟩
        · exact ⟨[], by simp [hcseq]⟩
        · rcases hens.1 with ⟨he, _⟩ | ⟨he, _⟩
          · exact ⟨[], by simp [hcseq, he]⟩
          · exact ⟨[(ensureUncategorizedCategory cs t.type).2], by rw [hcseq, he]⟩
      have hmap' : ∀ k c, mapGet m' k = some c → c ∈ cs' ∧ c.id = k := by
        rcases hcsext with ⟨ext0, hext0⟩
        rcases hres with ⟨_, hcseq, hmeq, _⟩ | ⟨_, hcseq, hmeq⟩
        · rw [hcseq, hmeq]; exact hmap
        · rw [hmeq]
          intro k c hk
          rw [mapGet_set] at hk
          split_ifs at hk with hkk
          · cases hk
            refine ⟨?_, by rw [hkk, hens.2]⟩
            rcases hens.1 with ⟨he, hemem⟩ | ⟨he, _⟩
            · rw [hcseq, he]; exact hemem
            · rw [hcseq, he]
              exact List.mem_append_right _ (List.mem_singleton_self _)
          · obtain ⟨hc1, hc2⟩ := hmap k c hk
            exact ⟨by rw [hext0]; exact List.mem_append_left _ hc1, hc2⟩
      obtain ⟨hfincanon, ⟨ext1, hext1⟩, hfintx⟩ := ih cs' m' hcs' hmap'
      rw [hgo]
      refine ⟨hfincanon, ?_, ?_⟩
      · rcases hcsext with ⟨ext0, hext0⟩
        exact ⟨ext0 ++ ext1, by rw [hext1, hext0, List.append_assoc]⟩
      · intro u hu
        rcases List.mem_cons.mp hu with rfl | hu'
        · have hfinmem : ∀ c ∈ cs', c ∈ (normalizeTransactionsGo now rest cs' m').2 := by
            intro c hc
            rw [hext1]
            exact List.mem_append_left _ hc
          rw [hrec]
          obtain ⟨d, hd⟩ := normalizeDate_some t.date nd hnd
          refine ⟨hidne, htyval, ⟨q, rfl, not_le.mp hle⟩, ⟨d, hd⟩, ?_,
            ⟨jsTrimOpt t.description, rfl, jsTrimOpt_fix _⟩, ?_,
            trimToUndef_fix _, trimToUndef_fix _, ?_, ?_⟩
          · -- category link
            rcases hres with ⟨hcid, hcseq, _, c, hmg, hct⟩ | ⟨hcid, hcseq, _⟩
            · obtain ⟨hcmem, hcidk⟩ := hmap _ c hmg
              have hcmem' : c ∈ cs' := by
                rcases hcsext with ⟨ext0, hext0⟩
                rw [hext0]
                exact List.mem_append_left _ hcmem
              exact ⟨c, hfinmem c hcmem', hcidk.trans hcid.symm, Or.inl hct⟩
            · have hcmem' : (ensureUncategorizedCategory cs t.type).2 ∈ cs' := by
                rcases hens.1 with ⟨he, hemem⟩ | ⟨he, _⟩
                · rw [hcseq, he]; exact hemem
                · rw [hcseq, he]
                  exact List.mem_append_right _ (List.mem_singleton_self _)
              exact ⟨(ensureUncategorizedCategory cs t.type).2, hfinmem _ hcmem',
                hcid.symm, Or.inr (hcid.trans hens.2)⟩
          · -- tags
            rcases htags : t.tags with _ | l
            · left
              rfl
            · right
              exact ⟨l.filter (fun tag => tag ≠ ""), rfl, filter_filter_same _ l⟩
          · -- createdAt nonempty
            show (if t.createdAt = "" then now else t.createdAt) ≠ ""
            split_ifs with hca
            · exact hnow
            · exact hca
          · -- updatedAt nonempty
            show (if t.updatedAt = "" then (if t.createdAt = "" then now else t.createdAt)
              else t.updatedAt) ≠ ""
            split_ifs with h1 h2
            · exact hnow
            · exact h2
            · exact h1
        · exact hfintx u hu'

/-- Already-trimmed optional fields are fixed by `trimToUndef`. -/
theorem trimToUndef_id (s : Option String) (h : optTrimmed s) : trimToUndef s = s := by
  cases s with
  | none => rfl
  | some v =>
    obtain ⟨hfix, hne⟩ := h
    show (if jsTrim v = "" then none else some (jsTrim v)) = some v
    rw [hfix, if_neg hne]

/-- A canonical record is kept unchanged by one loop iteration, and the
category list and map stay extensionally the same. -/
theorem step_id (now' : String) (cs : List RCategory) (m : List (String × RCategory))
    (t : RTransaction) (hcs : CanonCats cs)
    (hm : ∀ k, mapGet m k = cs.find? (fun c => c.id = k))
    (ht : CanonTx cs t) :
    ∃ m₂, normalizeTransactionsStep now' cs m t = some (t, cs, m₂) ∧
      (∀ k, mapGet m₂ k = cs.find? (fun c => c.id = k)) := by
  obtain ⟨htid, htty, ⟨q, hq, hqpos⟩, ⟨d, hdate⟩, ⟨c0, hc0mem, hc0id, hc0link⟩,
    ⟨ds, hds, hdstrim⟩, htags, hpm, hrc, hca, hua⟩ := ht
  have hfind : cs.find? (fun c => c.id = t.categoryId) = some c0 := by
    rw [← hc0id]
    exact find?_id_self cs hcs.2 c0 hc0mem
  have hmget : mapGet m t.categoryId = some c0 := (hm t.categoryId).trans hfind
  have h1 : some (jsTrimOpt t.description) = t.description := by
    rw [hds]
    show some (jsTrim ds) = some ds
    rw [hdstrim]
  have h2 : t.tags.map (fun l => l.filter (fun tag => tag ≠ "")) = t.tags := by
    rcases htags with hnone | ⟨l, hl, hfix⟩
    · rw [hnone]; rfl
    · rw [hl]
      show some (l.filter (fun tag => tag ≠ "")) = some l
      rw [hfix]
  by_cases hct : c0.type = t.type
  · refine ⟨m, ?_, hm⟩
    simp only [normalizeTransactionsStep, if_neg htid, if_neg (not_not_intro htty), hq,
      if_neg (not_le.mpr hqpos), hdate, normalizeDate, hmget, if_pos hct]
    rw [← hq, ← hdate, h1, h2, trimToUndef_id _ hpm, trimToUndef_id _ hrc,
      if_neg hua, if_neg hca]
  · have hstem : t.categoryId = UNCATEGORIZED_STEM ++ t.type := by
      rcases hc0link with h | h
      · exact absurd h hct
      · exact h
    have hensfind : cs.find? (fun c => c.id = UNCATEGORIZED_STEM ++ t.type) = some c0 := by
      rw [← hstem]
      exact hfind
    have hensval : ensureUncategorizedCategory cs t.type = (cs, c0) := by
      unfold ensureUncategorizedCategory
      rw [hensfind]
    refine ⟨mapSet m c0.id c0, ?_, ?_⟩
    · simp only [normalizeTransactionsStep, if_neg htid, if_neg (not_not_intro htty), hq,
        if_neg (not_le.mpr hqpos), hdate, normalizeDate, hmget, if_neg hct, hensval]
      rw [← hq, ← hdate, h1, h2, trimToUndef_id _ hpm, trimToUndef_id _ hrc,
        if_neg hua, if_neg hca, hc0id]
    · intro k
      rw [mapGet_set]
      split_ifs with hk
      · subst hk
        exact (find?_id_self cs hcs.2 c0 hc0mem).symm
      · exact hm k

/-- Main induction for claim C2, pass 2: a canonical transaction list over
a canonical category list is a fixed point of the `normalizeTransactions`
loop. -/
theorem go_id (now' : String) :
    ∀ (ts : List RTransaction) (cs : List RCategory) (m : List (String × RCategory)),
      CanonCats cs →
      (∀ k, mapGet m k = cs.find? (fun c => c.id = k)) →
      (∀ t ∈ ts, CanonTx cs t) →
      normalizeTransactionsGo now' ts cs m = (ts, cs) := by
  intro ts
  induction ts with
  | nil => intro cs m _ _ _; rfl
  | cons t rest ih =>
    intro cs m hcs hm hall
    obtain ⟨m₂, hstep, hm₂⟩ := step_id now' cs m t hcs hm (hall t (List.mem_cons_self t rest))
    have hgo : normalizeTransactionsGo now' (t :: rest) cs m =
        (t :: (normalizeTransactionsGo now' rest cs m₂).1,
          (normalizeTransactionsGo now' rest cs m₂).2) := by
      simp only [normalizeTransactionsGo, hstep]
    rw [hgo, ih cs m₂ hcs hm₂ (fun u hu => hall u (List.mem_cons_of_mem t hu))]

/-- `normalizePeriods` output is canonical. -/
theorem normalizePeriods_canon (now : String) (hnow : now ≠ "") (ps : List RPeriod) :
    ∀ p ∈ normalizePeriods now ps, CanonPeriod p := by
  intro p hp
  unfold normalizePeriods at hp
  rcases List.mem_map.mp hp with ⟨q, hq, rfl⟩
  have hqf := List.of_mem_filter hq
  simp only [decide_eq_true_eq] at hqf
  obtain ⟨hid, hname⟩ := hqf
  refine ⟨hid, ?_, ?_, normalizeDate_getD_fix q.startDate, normalizeDate_getD_fix q.endDate,
    ?_, ?_⟩
  · show (if jsTrim q.name = "" then "Periodo" else jsTrim q.name) ≠ ""
    split_ifs with h
    · decide
    · exact h
  · show jsTrim (if jsTrim q.name = "" then "Periodo" else jsTrim q.name) =
      (if jsTrim q.name = "" then "Periodo" else jsTrim q.name)
    split_ifs with h
    · decide
    · exact jsTrim_idem q.name
  · show ∃ x, (match q.initialFund with
        | JsNum.finite y => JsNum.finite y
        | JsNum.nonFinite => JsNum.finite 0) = JsNum.finite x
    cases q.initialFund with
    | finite x => exact ⟨x, rfl⟩
    | nonFinite => exact ⟨0, rfl⟩
  · show (if q.createdAt = "" then now else q.createdAt) ≠ ""
    split_ifs with h
    · exact hnow
    · exact h

/-- Canonical period lists are fixed by `normalizePeriods`. -/
theorem normalizePeriods_id (now' : String) (ps : List RPeriod)
    (h : ∀ p ∈ ps, CanonPeriod p) : normalizePeriods now' ps = ps := by
  unfold normalizePeriods
  have hall : ∀ p ∈ ps, (fun period => decide (period.id ≠ "" ∧ period.name ≠ "")) p = true := by
    intro p hp
    obtain ⟨h1, h2, _⟩ := h p hp
    simp [h1, h2]
  rw [List.filter_eq_self.mpr hall]
  have hfix : ∀ p ∈ ps,
      ({ p with
          name := if jsTrim p.name = "" then "Periodo" else jsTrim p.name,
          startDate := (normalizeDate p.startDate).getD p.startDate,
          endDate := (normalizeDate p.endDate).getD p.endDate,
          initialFund := match p.initialFund with
            | JsNum.finite q => JsNum.finite q
            | JsNum.nonFinite => JsNum.finite 0,
          createdAt := if p.createdAt = "" then now' else p.createdAt } : RPeriod) = p := by
    intro p hp
    obtain ⟨h1, h2, h3, h4, h5, ⟨x, h6⟩, h7⟩ := h p hp
    have hfund : (match p.initialFund with
        | JsNum.finite q => JsNum.finite q
        | JsNum.nonFinite => JsNum.finite 0) = p.initialFund := by
      rw [h6]
    rw [h3, if_neg h2, h4, h5, hfund, if_neg h7]
  exact List.map_congr_left hfix |>.trans (List.map_id ps)

/-- A fully canonical snapshot is a fixed point of
`normalizeTreasurySnapshot`, and the pass reports `changed = false`. -/
theorem pass2_unchanged (now' : String) (S1 : TreasurySnapshot)
    (hcats : CanonCats S1.categories)
    (htxs : ∀ t ∈ S1.transactions, CanonTx S1.categories t)
    (hpers : ∀ p ∈ S1.periods, CanonPeriod p)
    (hset : CanonSettings S1) :
    normalizeTreasurySnapshot now' S1 = (S1, false) := by
  have h1 : normalizeCategories S1.categories = S1.categories :=
    normalizeCategories_fix _ hcats
  have h2 : normalizeTransactionsGo now' S1.transactions S1.categories
      (mapOfList S1.categories) = (S1.transactions, S1.categories) :=
    go_id now' S1.transactions S1.categories (mapOfList S1.categories) hcats
      (fun k => mapOfList_find S1.categories hcats.2 k) htxs
  have h3 : normalizePeriods now' S1.periods = S1.periods :=
    normalizePeriods_id now' S1.periods hpers
  obtain ⟨⟨b, hb⟩, hth, hcp⟩ := hset
  have hob : some (S1.settings.hasCompletedOnboarding.getD false) =
      S1.settings.hasCompletedOnboarding := by
    rw [hb]
    exact rfl
  have hthm : some (if S1.settings.theme = some "dark" then "dark" else "light") =
      S1.settings.theme := by
    rcases hth with h | h
    · rw [h, if_neg (show ¬ ((some "light" : Option String) = some "dark") by decide)]
    · rw [h, if_pos rfl]
  have h4 : normalizeSettings S1.settings = S1.settings := by
    unfold normalizeSettings
    rw [hob, hthm]
  have h5 : (match S1.settings.currentPeriodId with
      | some pid =>
        if pid ≠ "" ∧ pid ∈ S1.periods.map (fun period => period.id) then some pid
        else S1.periods.head?.map (fun p => p.id)
      | none => S1.periods.head?.map (fun p => p.id)) = S1.settings.currentPeriodId := by
    rcases hcp with ⟨hnone, hpe⟩ | ⟨pid, hpid, hne, hmem⟩
    · rw [hnone, hpe]
      exact rfl
    · rw [hpid]
      simp only [if_pos (And.intro hne hmem)]
  simp only [normalizeTreasurySnapshot, normalizeTransactions, h1, h2, h3, h4, h5]
  simp

/-- Pass 1 of `normalizeTreasurySnapshot` establishes all the canonicity
invariants that make a second pass the identity. -/
theorem pass1_canon (now : String) (hnow : now ≠ "") (S : TreasurySnapshot) :
    CanonCats (normalizeTreasurySnapshot now S).1.categories ∧
      (∀ t ∈ (normalizeTreasurySnapshot now S).1.transactions,
        CanonTx (normalizeTreasurySnapshot now S).1.categories t) ∧
      (∀ p ∈ (normalizeTreasurySnapshot now S).1.periods, CanonPeriod p) ∧
      CanonSettings (normalizeTreasurySnapshot now S).1 := by
  obtain ⟨hc, _, ht⟩ := go_canon now hnow S.transactions (normalizeCategories S.categories)
    (mapOfList (normalizeCategories S.categories)) (normalizeCategories_canon S.categories)
    (fun k c h => mapOfList_sound _ k c h)
  refine ⟨hc, ht, normalizePeriods_canon now hnow S.periods, ?_⟩
  refine ⟨⟨S.settings.hasCompletedOnboarding.getD false, rfl⟩, ?_, ?_⟩
  · by_cases h : S.settings.theme = some "dark"
    · right
      show some (if S.settings.theme = some "dark" then "dark" else "light") = some "dark"
      rw [if_pos h]
    · left
      show some (if S.settings.theme = some "dark" then "dark" else "light") = some "light"
      rw [if_neg h]
  · have hcpid : (normalizeTreasurySnapshot now S).1.settings.currentPeriodId =
        (match S.settings.currentPeriodId with
         | some pid =>
           if pid ≠ "" ∧ pid ∈ ((normalizePeriods now S.periods).map (fun period => period.id))
           then some pid
           else (normalizePeriods now S.periods).head?.map (fun p => p.id)
         | none => (normalizePeriods now S.periods).head?.map (fun p => p.id)) := rfl
    have hper : (normalizeTreasurySnapshot now S).1.periods = normalizePeriods now S.periods :=
      rfl
    rw [hcpid, hper]
    have hhead : ∀ _ : Unit,
        ((normalizePeriods now S.periods).head?.map (fun p => p.id) = none ∧
            normalizePeriods now S.periods = []) ∨
          (∃ pid, (normalizePeriods now S.periods).head?.map (fun p => p.id) = some pid ∧
            pid ≠ "" ∧ pid ∈ (normalizePeriods now S.periods).map (fun p => p.id)) := by
      intro _
      cases hps : normalizePeriods now S.periods with
      | nil => left; exact ⟨rfl, rfl⟩
      | cons p r =>
        right
        refine ⟨p.id, rfl, ?_, by simp⟩
        exact normalizePeriods_id_ne now S.periods p (by rw [hps]; exact List.mem_cons_self p r)
    cases hin : S.settings.currentPeriodId with
    | none =>
      rcases hhead () with ⟨hh, hpe⟩ | ⟨pid, hh, hne, hmem⟩
      · exact Or.inl ⟨hh, hpe⟩
      · exact Or.inr ⟨pid, hh, hne, hmem⟩
    | some pid =>
      by_cases hcond : pid ≠ "" ∧ pid ∈ (normalizePeriods now S.periods).map
          (fun period => period.id)
      · exact Or.inr ⟨pid, by simp only [if_pos hcond], hcond.1, hcond.2⟩
      · rcases hhead () with ⟨hh, hpe⟩ | ⟨pid', hh, hne, hmem⟩
        · exact Or.inl ⟨by simp only [if_neg hcond]; exact hh, hpe⟩
        · exact Or.inr ⟨pid', by simp only [if_neg hcond]; exact hh, hne, hmem⟩

/-- Claim C2: normalization is idempotent — a second
`normalizeTreasurySnapshot` pass over the snapshot produced by a first pass
reports `changed = false` (the first pass's clock string is a genuine ISO
timestamp, hence non-empty). -/
theorem normalizer_idempotent (now now' : String) (S : TreasurySnapshot) (hnow : now ≠ "") :
    (normalizeTreasurySnapshot now' (normalizeTreasurySnapshot now S).1).2 = false := by
  obtain ⟨hc, ht, hp, hs⟩ := pass1_canon now hnow S
  rw [pass2_unchanged now' (normalizeTreasurySnapshot now S).1 hc ht hp hs]

/-- Witness for C2 on a concrete snapshot. -/
theorem normalizer_idempotent_witness :
    ("2024-01-01T00:00:00.000Z" : String) ≠ "" ∧
      (normalizeTreasurySnapshot "x"
        (normalizeTreasurySnapshot "2024-01-01T00:00:00.000Z" c3Snapshot).1).2 = false :=
  ⟨by decide,
    normalizer_idempotent "2024-01-01T00:00:00.000Z" "x" c3Snapshot (by decide)⟩

end Treasury
